import Mathlib

/-!
Verification of the NSGA-II multi-objective optimizer core
(src/rust/src/nsga2.rs of the minotaur repository).

Modelling conventions (shallow embedding):
* IEEE-754 `f64` arithmetic is modelled by exact rational arithmetic (`ℚ`).
  All `f64` values occurring in the algorithm that we reason about exactly
  (LCG outputs `k / 2^31`, clamping, comparisons, sums of products) are
  exactly representable, so `ℚ` is faithful on the NaN-free, non-overflowing
  executions the spec describes.  Decimal literals such as `0.3`, `1e-10`
  are modelled by the exact rationals they denote.
* The transcendental helper `f64::powf` has no closed rational form; every
  definition that needs it takes an arbitrary function `pf : ℚ → ℚ → ℚ` as a
  parameter, so each theorem proved for all `pf` covers the real `powf`.
* `f64::INFINITY` (used only for crowding distances) is modelled by `⊤` of
  `WithTop ℚ`; `⊤ + q = ⊤` and the order on `WithTop ℚ` agree with IEEE
  semantics on non-NaN values.
* Rust `u64` wrapping arithmetic is modelled on `ℕ` with explicit `% 2^64`;
  `usize` indices are `ℕ`.  Out-of-range `Vec` indexing panics in Rust; the
  embedding uses `List.getD` with a default, and every theorem is only
  about executions where all indices are in range (this is proved, not
  assumed, where it matters).
* Rust mutation of `self` is modelled by explicit state passing; the RNG
  state (`rng_state : u64`) is threaded as a `ℕ` value.
-/

namespace Minotaur

/- Rational arithmetic must evaluate inside `decide`/`rfl` proofs about
concrete runs; these core operations are `@[irreducible]` by default. -/
attribute [local semireducible] Rat.mul Rat.add Rat.inv Rat.sub Rat.ofScientific

/-- Rust `usize::MAX`, the sentinel rank of an unranked individual. -/
def usizeMAX : ℕ := 2 ^ 64 - 1

/-- Individual in the population (struct `Individual` of nsga2.rs). -/
structure Individual where
  x : List ℚ
  f : List ℚ
  cv : ℚ
  rank : ℕ
  crowding_distance : WithTop ℚ
  status : ℤ
  outputs : List ℚ
deriving DecidableEq

instance : Inhabited Individual :=
  ⟨⟨[], [], 0, usizeMAX, 0, -1, []⟩⟩

/-- `Individual::new`. -/
def Individual.new (x : List ℚ) : Individual :=
  { x := x, f := [], cv := 0, rank := usizeMAX, crowding_distance := 0,
    status := -1, outputs := [] }

/-- The objective loop of `Individual::dominates`: iterate over
`self.f.zip(other.f)`, returning `false` on the first strictly worse
objective and otherwise accumulating whether a strictly better one exists. -/
def dominatesLoop : List ℚ → List ℚ → Bool → Bool
  | a :: as, b :: bs, dom =>
      if a > b then false
      else dominatesLoop as bs (dom || decide (a < b))
  | _, _, dom => dom

/-- `Individual::dominates`: constraint violation first, then Pareto
comparison of the objective vectors. -/
def Individual.dominates (self other : Individual) : Bool :=
  if self.cv < other.cv then true
  else if self.cv > other.cv then false
  else dominatesLoop self.f other.f false

/-- NSGA-II configuration (struct `NSGA2Config`). -/
structure NSGA2Config where
  pop_size : ℕ
  generations : ℕ
  crossover_prob : ℚ
  mutation_prob : ℚ
  eta_c : ℚ
  eta_m : ℚ
  bounds : List (ℚ × ℚ)
  seed : ℕ
deriving DecidableEq

/-- Pareto front result (struct `ParetoFront`). -/
structure ParetoFront where
  solutions : List Individual
  generation : ℕ
  hypervolume : Option ℚ
deriving DecidableEq

/-- Optimizer state (struct `NSGA2`). -/
structure NSGA2 where
  config : NSGA2Config
  population : List Individual
  rng_state : ℕ
deriving DecidableEq

/-- `NSGA2::new`: stores the configuration, seeds the RNG, empty
population.  It performs no validation and cannot fail. -/
def NSGA2.new (config : NSGA2Config) : NSGA2 :=
  { config := config, population := [], rng_state := config.seed }

/-- `NSGA2::rand`: one step of the 64-bit LCG; returns the drawn value
`(state >> 33) as f64 / 2^31` together with the new state. -/
def rand (s : ℕ) : ℚ × ℕ :=
  let s2 : ℕ := (s * 6364136223846793005 + 1442695040888963407) % 2 ^ 64
  (((s2 / 2 ^ 33 : ℕ) : ℚ) / (2 ^ 31 : ℚ), s2)

/-- `NSGA2::rand_int`: `(rand() * n as f64) as usize`, truncation toward
zero of a nonnegative value. -/
def rand_int (n : ℕ) (s : ℕ) : ℕ × ℕ :=
  let rs := rand s
  ((rs.1 * (n : ℚ)).floor.toNat, rs.2)

theorem rand_fst (s : ℕ) : (rand s).1 =
    ((((s * 6364136223846793005 + 1442695040888963407) % 2 ^ 64) / 2 ^ 33 : ℕ) : ℚ)
      / (2 ^ 31 : ℚ) := rfl

theorem rand_int_fst (n s : ℕ) : (rand_int n s).1 = ((rand s).1 * (n : ℚ)).floor.toNat := rfl

/-- The LCG output is in `[0, 1)`. -/
theorem rand_nonneg_lt_one (s : ℕ) : 0 ≤ (rand s).1 ∧ (rand s).1 < 1 := by
  rw [rand_fst]
  constructor
  · positivity
  · have h2 : ((s * 6364136223846793005 + 1442695040888963407) % 2 ^ 64) / 2 ^ 33 < 2 ^ 31 := by
      have hlt : (s * 6364136223846793005 + 1442695040888963407) % 2 ^ 64 < 2 ^ 64 :=
        Nat.mod_lt _ (by norm_num)
      omega
    have h3 : ((((s * 6364136223846793005 + 1442695040888963407) % 2 ^ 64) / 2 ^ 33 : ℕ) : ℚ)
        < (2 ^ 31 : ℚ) := by
      exact_mod_cast h2
    rw [div_lt_one (by norm_num)]
    exact h3

/-- `rand_int n` returns an index strictly below `n` whenever `0 < n`. -/
theorem rand_int_lt (n s : ℕ) (hn : 0 < n) : (rand_int n s).1 < n := by
  obtain ⟨h0, h1⟩ := rand_nonneg_lt_one s
  rw [rand_int_fst]
  have hnq : (0 : ℚ) < (n : ℚ) := by exact_mod_cast hn
  have hmul : (rand s).1 * (n : ℚ) < (n : ℚ) := by
    calc (rand s).1 * (n : ℚ) < 1 * (n : ℚ) := mul_lt_mul_of_pos_right h1 hnq
      _ = (n : ℚ) := one_mul _
  have hfl : ((rand s).1 * (n : ℚ)).floor < (n : ℤ) := by
    by_contra hcon
    push_neg at hcon
    have hle : (((n : ℤ) : ℚ)) ≤ (rand s).1 * (n : ℚ) := Rat.le_floor.mp hcon
    have hle2 : (n : ℚ) ≤ (rand s).1 * (n : ℚ) := by exact_mod_cast hle
    exact absurd hmul (not_lt.mpr hle2)
  omega

/-! ### List helpers mirroring Rust slice operations -/

/-- `Vec::swap(i, j)` on a list of naturals. -/
def listSwap (l : List ℕ) (i j : ℕ) : List ℕ :=
  (l.set i (l.getD j 0)).set j (l.getD i 0)

/-- Update individual `i` of a population, setting its rank
(`self.population[i].rank = r`). -/
def setRank (p : List Individual) (i : ℕ) (r : ℕ) : List Individual :=
  p.set i { p.getD i default with rank := r }

/-- Update individual `i`, setting its crowding distance. -/
def setCrowding (p : List Individual) (i : ℕ) (c : WithTop ℚ) : List Individual :=
  p.set i { p.getD i default with crowding_distance := c }

/-- Update individual `i`, adding to its crowding distance
(`self.population[i].crowding_distance += d`; `⊤ + d = ⊤` as for `f64`). -/
def addCrowding (p : List Individual) (i : ℕ) (d : ℚ) : List Individual :=
  p.set i { p.getD i default with
    crowding_distance := (p.getD i default).crowding_distance + (d : WithTop ℚ) }

/-- Insert into a sorted list, before the first element not `le`-below the
new one.  Together with `stableSortBy` this computes exactly the stable
sort that `slice::sort_by` performs (a stable sort of a total preorder has
a unique result, so insertion sort is extensionally the Rust sort). -/
def insertOrdered (le : α → α → Bool) (a : α) : List α → List α
  | [] => [a]
  | b :: bs => if le a b then a :: b :: bs else b :: insertOrdered le a bs

/-- Stable sort by a boolean `le` relation; models `slice::sort_by` with
comparator `cmp` via `le a b := cmp a b ≠ Greater`. -/
def stableSortBy (le : α → α → Bool) : List α → List α
  | [] => []
  | a :: as => insertOrdered le a (stableSortBy le as)

/-! ### Population initialization (`NSGA2::initialize_population`) -/

/-- Fisher–Yates shuffle of one dimension of stratum indices:
`for i in (1..n).rev() { let j = self.rand_int(i + 1); dim.swap(i, j); }`. -/
def shuffle_dim (dim : List ℕ) (s : ℕ) : List ℕ × ℕ :=
  ((List.range' 1 (dim.length - 1)).reverse).foldl
    (fun acc i =>
      let js := rand_int (i + 1) acc.2
      (listSwap acc.1 i js.1, js.2))
    (dim, s)

/-- One gene of one candidate of the initial population:
`let (lo, hi) = bounds[j]; let idx = indices[j][i]; let u = (idx + rand()) / n;
x.push(lo + u * (hi - lo))`. -/
def init_gene (cfg : NSGA2Config) (indices : List (List ℕ)) (i : ℕ)
    (acc2 : List ℚ × ℕ) (j : ℕ) : List ℚ × ℕ :=
  let lohi := cfg.bounds.getD j (0, 0)
  let idx : ℚ := (((indices.getD j []).getD i 0 : ℕ) : ℚ)
  let rs := rand acc2.2
  let u := (idx + rs.1) / (cfg.pop_size : ℚ)
  (acc2.1 ++ [lohi.1 + u * (lohi.2 - lohi.1)], rs.2)

/-- One candidate of the initial population (the body of
`for i in 0..n`). -/
def init_candidate (cfg : NSGA2Config) (indices : List (List ℕ))
    (acc : List Individual × ℕ) (i : ℕ) : List Individual × ℕ :=
  let xs := (List.range cfg.bounds.length).foldl (init_gene cfg indices i) ([], acc.2)
  (acc.1 ++ [Individual.new xs.1], xs.2)

/-- `NSGA2::initialize_population`: Latin hypercube sampling.  Each
dimension gets a shuffled list of stratum indices; gene `j` of candidate
`i` is `lo + ((idx + u) / n) * (hi - lo)` with one fresh draw `u`. -/
def initialize_population (cfg : NSGA2Config) (s : ℕ) : List Individual × ℕ :=
  let n := cfg.pop_size
  let d := cfg.bounds.length
  let indices0 : List (List ℕ) := (List.range d).map (fun _ => List.range n)
  let shuffled := indices0.foldl
    (fun (acc : List (List ℕ) × ℕ) dim =>
      let ds := shuffle_dim dim acc.2
      (acc.1 ++ [ds.1], ds.2)) ([], s)
  (List.range n).foldl (init_candidate cfg shuffled.1) ([], shuffled.2)

/-! ### Evaluation (`NSGA2::evaluate`) -/

/-- Write one evaluator result into an individual (the loop body of
`NSGA2::evaluate`, also used inline in `create_offspring`). -/
def evalInd (eval_fn : List ℚ → List ℚ × ℚ × ℤ × List ℚ) (ind : Individual) : Individual :=
  let r := eval_fn ind.x
  { ind with f := r.1, cv := r.2.1, status := r.2.2.1, outputs := r.2.2.2 }

/-- `NSGA2::evaluate`. -/
def evaluate (eval_fn : List ℚ → List ℚ × ℚ × ℤ × List ℚ) (pop : List Individual) :
    List Individual :=
  pop.map (evalInd eval_fn)

/-! ### Fast non-dominated sorting (`NSGA2::non_dominated_sort`) -/

/-- Body of the all-pairs comparison loop: counts of dominators and lists
of dominated indices. -/
def domPairStep (pop : List Individual) (acc : List ℕ × List (List ℕ)) (i j : ℕ) :
    List ℕ × List (List ℕ) :=
  if (pop.getD i default).dominates (pop.getD j default) then
    (acc.1.set j (acc.1.getD j 0 + 1), acc.2.set i ((acc.2.getD i []) ++ [j]))
  else if (pop.getD j default).dominates (pop.getD i default) then
    (acc.1.set i (acc.1.getD i 0 + 1), acc.2.set j ((acc.2.getD j []) ++ [i]))
  else acc

/-- The inner loop `for j in (i+1)..n` of the all-pairs comparison. -/
def domOuterStep (pop : List Individual) (acc : List ℕ × List (List ℕ)) (i : ℕ) :
    List ℕ × List (List ℕ) :=
  (List.range' (i + 1) (pop.length - (i + 1))).foldl
    (fun acc2 j => domPairStep pop acc2 i j) acc

/-- The double loop `for i in 0..n { for j in (i+1)..n { ... } }` producing
`(domination_count, dominated_by)`. -/
def domination_data (pop : List Individual) : List ℕ × List (List ℕ) :=
  (List.range pop.length).foldl (domOuterStep pop)
    (List.replicate pop.length 0, List.replicate pop.length [])

/-- One decrement of the front-propagation loop: decrement the count of
index `j`; if it reaches 0, `j` gets rank `frontIdx + 1` and joins the
next front. -/
def bfsDecStep (frontIdx : ℕ) (st2 : List Individual × List ℕ × List ℕ) (j : ℕ) :
    List Individual × List ℕ × List ℕ :=
  let cnts2 := st2.2.1.set j (st2.2.1.getD j 0 - 1)
  if cnts2.getD j 0 = 0 then
    (setRank st2.1 j (frontIdx + 1), cnts2, st2.2.2 ++ [j])
  else (st2.1, cnts2, st2.2.2)

/-- Inner body of the front-propagation loop: process every index
dominated by `i`. -/
def bfsInner (domBy : List (List ℕ)) (frontIdx : ℕ)
    (st : List Individual × List ℕ × List ℕ) (i : ℕ) :
    List Individual × List ℕ × List ℕ :=
  (domBy.getD i []).foldl (bfsDecStep frontIdx) st

/-- The `while !current_front.is_empty()` loop.  In the program each
candidate joins at most one front, so the loop runs at most `n + 1` times;
the fuel argument is instantiated with `n + 1` below, which is always
sufficient. -/
def bfsFronts (domBy : List (List ℕ)) :
    ℕ → List Individual → List ℕ → List ℕ → ℕ → List Individual
  | 0, pop, _, _, _ => pop
  | fuel + 1, pop, counts, currentFront, frontIdx =>
    if currentFront.isEmpty then pop
    else
      let st := currentFront.foldl (bfsInner domBy frontIdx)
        (pop, counts, ([] : List ℕ))
      bfsFronts domBy fuel st.1 st.2.1 st.2.2 (frontIdx + 1)

/-- The rank-reset loop at the top of `non_dominated_sort`. -/
def rank_reset (pop : List Individual) : List Individual :=
  pop.map (fun ind => { ind with rank := usizeMAX })

/-- `NSGA2::non_dominated_sort`: reset ranks, compute domination data,
assign rank 0 to candidates with count 0, then propagate fronts. -/
def non_dominated_sort (pop : List Individual) : List Individual :=
  let pop1 := rank_reset pop
  let dd := domination_data pop1
  let front0 := (List.range pop.length).filter (fun i => dd.1.getD i 0 == 0)
  let pop2 := front0.foldl (fun p i => setRank p i 0) pop1
  bfsFronts dd.2 (pop.length + 1) pop2 dd.1 front0 0

/-! ### Crowding distance (`NSGA2::crowding_distance`) -/

/-- Comparator used to sort a front by objective `m`
(`partial_cmp(..).unwrap_or(Equal)`; total on the NaN-free values we
model). -/
def crowdKey (p : List Individual) (m : ℕ) (a b : ℕ) : Bool :=
  decide ((p.getD a default).f.getD m 0 ≤ (p.getD b default).f.getD m 0)

/-- Per-objective pass of the crowding loop on one front: sort the front
indices by objective `m`, give the boundary members infinite distance,
and add the normalized neighbour gap to each interior member. -/
def crowdObjStep (st : List Individual × List ℕ) (m : ℕ) : List Individual × List ℕ :=
  let q := st.1
  let sorted := stableSortBy (crowdKey q m) st.2
  let first := sorted.getD 0 0
  let last := sorted.getD (sorted.length - 1) 0
  let q1 := setCrowding q first ⊤
  let q2 := setCrowding q1 last ⊤
  let f_min := (q2.getD first default).f.getD m 0
  let f_max := (q2.getD last default).f.getD m 0
  let range := if |f_max - f_min| > 1 / 10 ^ 10 then f_max - f_min else 1
  let q3 := (List.range' 1 (sorted.length - 2)).foldl
    (fun q4 i =>
      let prev := sorted.getD (i - 1) 0
      let next := sorted.getD (i + 1) 0
      let curr := sorted.getD i 0
      addCrowding q4 curr
        (((q4.getD next default).f.getD m 0 - (q4.getD prev default).f.getD m 0) / range))
    q2
  (q3, sorted)

/-- The indices of the members of the front of rank `rank`
(`front_indices` of the crowding loop). -/
def frontOf (p : List Individual) (rank : ℕ) : List ℕ :=
  (List.range p.length).filter (fun i => (p.getD i default).rank == rank)

/-- One iteration of the `for rank in 0..=max_rank` loop: collect the
front, give every member of a front of size ≤ 2 infinite distance,
otherwise run the per-objective passes. -/
def crowdFrontStep (n_obj : ℕ) (p : List Individual) (rank : ℕ) : List Individual :=
  let front_indices := frontOf p rank
  if front_indices.length ≤ 2 then
    front_indices.foldl (fun q i => setCrowding q i ⊤) p
  else
    ((List.range n_obj).foldl crowdObjStep (p, front_indices)).1

/-- The reset loop of `crowding_distance`: set every crowding distance
to 0. -/
def crowd_reset (pop : List Individual) : List Individual :=
  pop.map (fun ind => { ind with crowding_distance := (0 : WithTop ℚ) })

/-- `NSGA2::crowding_distance`.  For a nonempty population,
`max_rank = population.map(rank).max().unwrap_or(0)`; the fold of `max`
over the list starting from 0 computes the same value, since ranks are
nonnegative. -/
def crowding_distance (pop : List Individual) : List Individual :=
  if pop.length = 0 then pop
  else
    let pop1 := crowd_reset pop
    let n_obj := (pop1.headD default).f.length
    let max_rank := (pop1.map Individual.rank).foldl max 0
    (List.range (max_rank + 1)).foldl (fun p rank => crowdFrontStep n_obj p rank) pop1

/-! ### Variation operators -/

/-- `NSGA2::tournament_select`. -/
def tournament_select (pop : List Individual) (s : ℕ) : ℕ × ℕ :=
  let ra := rand_int pop.length s
  let rb := rand_int pop.length ra.2
  let a := ra.1
  let b := rb.1
  let ind_a := pop.getD a default
  let ind_b := pop.getD b default
  (if ind_a.rank < ind_b.rank then a
   else if ind_b.rank < ind_a.rank then b
   else if ind_b.crowding_distance < ind_a.crowding_distance then a
   else b, rb.2)

/-- One gene of `NSGA2::sbx_crossover` (the body of its `for i in 0..d`
loop), with `powf` abstracted as `pf`.  A recombined gene is clamped to
its bounds; skipped genes keep the parent values. -/
def sbx_gene (pf : ℚ → ℚ → ℚ) (cfg : NSGA2Config) (p1 p2 : List ℚ)
    (acc : (List ℚ × List ℚ) × ℕ) (i : ℕ) : (List ℚ × List ℚ) × ℕ :=
  let r2 := rand acc.2
  if r2.1 > 1 / 2 then ((acc.1.1, acc.1.2), r2.2)
  else
    let lohi := cfg.bounds.getD i (0, 0)
    let y1 := min (p1.getD i 0) (p2.getD i 0)
    let y2 := max (p1.getD i 0) (p2.getD i 0)
    if |y2 - y1| < 1 / 10 ^ 10 then ((acc.1.1, acc.1.2), r2.2)
    else
      let beta := 1 + 2 * (y1 - lohi.1) / (y2 - y1)
      let alpha := 2 - pf beta (-(cfg.eta_c + 1))
      let ru := rand r2.2
      let betaq :=
        if ru.1 ≤ 1 / alpha then pf (ru.1 * alpha) (1 / (cfg.eta_c + 1))
        else pf (1 / (2 - ru.1 * alpha)) (1 / (cfg.eta_c + 1))
      let c1i := 1 / 2 * ((y1 + y2) - betaq * (y2 - y1))
      let c2i := 1 / 2 * ((y1 + y2) + betaq * (y2 - y1))
      ((acc.1.1.set i (min (max c1i lohi.1) lohi.2),
        acc.1.2.set i (min (max c2i lohi.1) lohi.2)), ru.2)

/-- `NSGA2::sbx_crossover` (simulated binary crossover). -/
def sbx_crossover (pf : ℚ → ℚ → ℚ) (cfg : NSGA2Config) (p1 p2 : List ℚ) (s : ℕ) :
    (List ℚ × List ℚ) × ℕ :=
  let d := p1.length
  let rs := rand s
  if rs.1 > cfg.crossover_prob then ((p1, p2), rs.2)
  else (List.range d).foldl (sbx_gene pf cfg p1 p2) ((p1, p2), rs.2)

/-- One gene of `NSGA2::polynomial_mutation` (the body of its
`for i in 0..d` loop), with `powf` abstracted as `pf`.  A mutated gene is
clamped to its bounds. -/
def mut_gene (pf : ℚ → ℚ → ℚ) (cfg : NSGA2Config) (acc : List ℚ × ℕ) (i : ℕ) :
    List ℚ × ℕ :=
  let r := rand acc.2
  if r.1 > cfg.mutation_prob then (acc.1, r.2)
  else
    let lohi := cfg.bounds.getD i (0, 0)
    let y := acc.1.getD i 0
    let delta1 := (y - lohi.1) / (lohi.2 - lohi.1)
    let delta2 := (lohi.2 - y) / (lohi.2 - lohi.1)
    let ru := rand r.2
    let deltaq :=
      if ru.1 < 1 / 2 then
        let xy := 1 - delta1
        let v := 2 * ru.1 + (1 - 2 * ru.1) * pf xy (cfg.eta_m + 1)
        pf v (1 / (cfg.eta_m + 1)) - 1
      else
        let xy := 1 - delta2
        let v := 2 * (1 - ru.1) + 2 * (ru.1 - 1 / 2) * pf xy (cfg.eta_m + 1)
        1 - pf v (1 / (cfg.eta_m + 1))
    let xi := y + deltaq * (lohi.2 - lohi.1)
    (acc.1.set i (min (max xi lohi.1) lohi.2), ru.2)

/-- `NSGA2::polynomial_mutation`. -/
def polynomial_mutation (pf : ℚ → ℚ → ℚ) (cfg : NSGA2Config) (x : List ℚ) (s : ℕ) :
    List ℚ × ℕ :=
  (List.range x.length).foldl (mut_gene pf cfg) (x, s)

/-! ### Offspring creation (`NSGA2::create_offspring`) -/

/-- The `while offspring.len() < n` loop.  Every iteration appends at
least one offspring, so `n` iterations always suffice; the fuel is
instantiated with `cfg.pop_size` below. -/
def create_offspring_go (pf : ℚ → ℚ → ℚ) (cfg : NSGA2Config)
    (eval_fn : List ℚ → List ℚ × ℚ × ℤ × List ℚ) (pop : List Individual) :
    ℕ → List Individual → ℕ → List Individual × ℕ
  | 0, acc, s => (acc, s)
  | fuel + 1, acc, s =>
    if acc.length < cfg.pop_size then
      let t1 := tournament_select pop s
      let t2 := tournament_select pop t1.2
      let p1 := (pop.getD t1.1 default).x
      let p2 := (pop.getD t2.1 default).x
      let cx := sbx_crossover pf cfg p1 p2 t2.2
      let m1 := polynomial_mutation pf cfg cx.1.1 cx.2
      let m2 := polynomial_mutation pf cfg cx.1.2 m1.2
      let ind1 := evalInd eval_fn (Individual.new m1.1)
      let acc1 := acc ++ [ind1]
      if acc1.length < cfg.pop_size then
        create_offspring_go pf cfg eval_fn pop fuel
          (acc1 ++ [evalInd eval_fn (Individual.new m2.1)]) m2.2
      else
        create_offspring_go pf cfg eval_fn pop fuel acc1 m2.2
    else (acc, s)

/-- `NSGA2::create_offspring`. -/
def create_offspring (pf : ℚ → ℚ → ℚ) (cfg : NSGA2Config) (pop : List Individual)
    (eval_fn : List ℚ → List ℚ × ℚ × ℤ × List ℚ) (s : ℕ) : List Individual × ℕ :=
  create_offspring_go pf cfg eval_fn pop cfg.pop_size [] s

/-! ### Environmental selection (`NSGA2::environmental_selection`) -/

/-- Index comparator of environmental selection: rank ascending, then
crowding distance descending (`le a b := cmp(a, b) ≠ Greater`). -/
def envLe (p : List Individual) (a b : ℕ) : Bool :=
  let ia := p.getD a default
  let ib := p.getD b default
  if ia.rank < ib.rank then true
  else if ib.rank < ia.rank then false
  else decide (ib.crowding_distance ≤ ia.crowding_distance)

/-- `NSGA2::environmental_selection`: merge parents and offspring,
re-rank, re-crowd, sort indices, keep the best `pop_size`. -/
def environmental_selection (cfg : NSGA2Config) (pop offspring : List Individual) :
    List Individual :=
  let combined := pop ++ offspring
  let sorted_pop := crowding_distance (non_dominated_sort combined)
  let indices := List.range sorted_pop.length
  let indices2 := stableSortBy (envLe sorted_pop) indices
  (indices2.take cfg.pop_size).map (fun i => sorted_pop.getD i default)

/-! ### The generational driver (`NSGA2::optimize`) -/

/-- One generation step of the main loop, also accumulating the list of
decision vectors passed to the evaluator (instrumentation used to state
reproducibility; it does not influence the computation). -/
def gen_step (pf : ℚ → ℚ → ℚ) (cfg : NSGA2Config)
    (eval_fn : List ℚ → List ℚ × ℚ × ℤ × List ℚ)
    (st : (List Individual × ℕ) × List (List ℚ)) :
    (List Individual × ℕ) × List (List ℚ) :=
  let off := create_offspring pf cfg st.1.1 eval_fn st.1.2
  let pop2 := environmental_selection cfg st.1.1 off.1
  ((pop2, off.2), st.2 ++ off.1.map Individual.x)

/-- The body of `NSGA2::optimize` starting from RNG state `s0`:
initialize, evaluate, rank, crowd, then `generations` steps.  Returns the
final population and RNG state, paired with the trace of all decision
vectors sent to the evaluator, in order. -/
def optimize_loop (pf : ℚ → ℚ → ℚ) (cfg : NSGA2Config)
    (eval_fn : List ℚ → List ℚ × ℚ × ℤ × List ℚ) (s0 : ℕ) :
    (List Individual × ℕ) × List (List ℚ) :=
  let ip := initialize_population cfg s0
  let pop1 := evaluate eval_fn ip.1
  let pop2 := crowding_distance (non_dominated_sort pop1)
  (List.range cfg.generations).foldl (fun st _g => gen_step pf cfg eval_fn st)
    ((pop2, ip.2), pop1.map Individual.x)

/-- `NSGA2::optimize`: run the loop and package the rank-0 subset of the
final population as the Pareto front. -/
def NSGA2.optimize (pf : ℚ → ℚ → ℚ) (o : NSGA2)
    (eval_fn : List ℚ → List ℚ × ℚ × ℤ × List ℚ) : ParetoFront :=
  let res := optimize_loop pf o.config eval_fn o.rng_state
  { solutions := res.1.1.filter (fun ind => ind.rank == 0),
    generation := o.config.generations,
    hypervolume := none }

/-- The sequence of decision vectors a run of `optimize` sends to the
evaluator. -/
def optimizeTrace (pf : ℚ → ℚ → ℚ) (o : NSGA2)
    (eval_fn : List ℚ → List ℚ × ℚ × ℤ × List ℚ) : List (List ℚ) :=
  (optimize_loop pf o.config eval_fn o.rng_state).2

/-! ### Hypervolume (`hypervolume_2d`) -/

/-- Sort comparator of `hypervolume_2d` (ascending first objective). -/
def hvLe (a b : Individual) : Bool :=
  decide (a.f.getD 0 0 ≤ b.f.getD 0 0)

/-- The sweep body of `hypervolume_2d`: accumulator is
`(hv, prev_f2)`. -/
def hvStep (ref_point : ℚ × ℚ) (acc : ℚ × ℚ) (ind : Individual) : ℚ × ℚ :=
  if ind.f.getD 0 0 < ref_point.1 ∧ ind.f.getD 1 0 < ref_point.2 then
    let width := ref_point.1 - ind.f.getD 0 0
    let height := acc.2 - ind.f.getD 1 0
    (if height > 0 then acc.1 + width * height else acc.1, ind.f.getD 1 0)
  else acc

/-- `hypervolume_2d` of nsga2.rs. -/
def hypervolume_2d (front : List Individual) (ref_point : ℚ × ℚ) : ℚ :=
  if front.isEmpty then 0
  else
    let sorted := stableSortBy hvLe front
    (sorted.foldl (hvStep ref_point) (0, ref_point.2)).1

/-- The pair of an individual's objective vector and constraint
violation: the only fields `dominates` reads. -/
def fcv (ind : Individual) : List ℚ × ℚ := (ind.f, ind.cv)

/-! ### Bound-membership measurements (the property of C2) -/

/-- Gene `v` lies in the closed interval given by the bound pair `b`. -/
def geneInB (b : ℚ × ℚ) (v : ℚ) : Bool :=
  decide (b.1 ≤ v) && decide (v ≤ b.2)

/-- A decision vector has one gene per dimension and every gene is within
its dimension's bounds. -/
def vecInBounds (bounds : List (ℚ × ℚ)) (x : List ℚ) : Bool :=
  (x.length == bounds.length) &&
    (List.range x.length).all (fun k => geneInB (bounds.getD k (0, 0)) (x.getD k 0))

/-- Every bound pair satisfies `lo ≤ hi`. -/
def bndOK (bounds : List (ℚ × ℚ)) : Bool :=
  bounds.all (fun b => decide (b.1 ≤ b.2))

/-- Every member of a population has its decision vector within bounds. -/
def popInBounds (bounds : List (ℚ × ℚ)) (pop : List Individual) : Bool :=
  pop.all (fun ind => vecInBounds bounds ind.x)

/-! ### Concrete inputs used by witnesses and counterexamples -/

/-- The two-candidate front of the spec's concrete hypervolume check
(objective vectors (0.3, 0.8) and (0.5, 0.5)). -/
def hvFrontEx : List Individual :=
  [{ Individual.new [] with f := [3/10, 8/10] },
   { Individual.new [] with f := [1/2, 1/2] }]

/-- A concrete stand-in for `powf` (the theorems using it hold for every
such function). -/
def pfEx : ℚ → ℚ → ℚ := fun _ _ => 1

/-- A concrete deterministic evaluator: one objective equal to the first
gene, no constraint violation. -/
def evEx : List ℚ → List ℚ × ℚ × ℤ × List ℚ := fun x => ([x.getD 0 0], 0, 0, [])

/-- A small valid configuration. -/
def cfgEx : NSGA2Config :=
  { pop_size := 2, generations := 1, crossover_prob := 9/10, mutation_prob := 1/10,
    eta_c := 20, eta_m := 20, bounds := [(0, 1)], seed := 42 }

/-- A two-member population whose individuals both carry rank 0. -/
def popEx : List Individual :=
  [{ Individual.new [] with rank := 0 }, { Individual.new [] with rank := 0 }]

/-- A two-member population with mutually non-dominating objective
vectors. -/
def popEx2 : List Individual :=
  [{ Individual.new [] with f := [1, 2] }, { Individual.new [] with f := [2, 1] }]

/-- An invalid configuration: the single dimension has `lo = 1 > 0 = hi`. -/
def cfgBad : NSGA2Config :=
  { pop_size := 2, generations := 1, crossover_prob := 9/10, mutation_prob := 1/10,
    eta_c := 20, eta_m := 20, bounds := [(1, 0)], seed := 42 }

/-! ### The dominance relation: characterization and asymmetry -/

theorem mem_zip_symm : ∀ {as bs : List ℚ} {p : ℚ × ℚ},
    p ∈ as.zip bs → (p.2, p.1) ∈ bs.zip as
  | a :: as, b :: bs, p, h => by
      rcases List.mem_cons.mp h with h1 | h2
      · subst h1; exact List.mem_cons_self _ _
      · exact List.mem_cons_of_mem _ (mem_zip_symm h2)

theorem dominatesLoop_iff : ∀ (as bs : List ℚ) (acc : Bool),
    dominatesLoop as bs acc = true ↔
      ((∀ p ∈ as.zip bs, p.1 ≤ p.2) ∧
        (acc = true ∨ ∃ p ∈ as.zip bs, p.1 < p.2))
  | [], bs, acc => by cases bs <;> simp [dominatesLoop]
  | a :: as, [], acc => by simp [dominatesLoop]
  | a :: as, b :: bs, acc => by
      by_cases hab : a > b
      · simp only [dominatesLoop, if_pos hab]
        constructor
        · intro h; exact absurd h (by simp)
        · rintro ⟨hle, -⟩
          exact absurd (hle (a, b) (by simp [List.zip_cons_cons])) (by simpa using hab)
      · simp only [dominatesLoop, if_neg hab]
        rw [dominatesLoop_iff as bs (acc || decide (a < b))]
        push_neg at hab
        constructor
        · rintro ⟨hle, hstrict⟩
          refine ⟨?_, ?_⟩
          · intro p hp
            rcases List.mem_cons.mp hp with h1 | h2
            · subst h1; exact hab
            · exact hle p h2
          · rcases hstrict with hacc | ⟨p, hp, hlt⟩
            · rcases Bool.or_eq_true_iff.mp hacc with h | h
              · exact Or.inl h
              · exact Or.inr ⟨(a, b), by simp [List.zip_cons_cons], by simpa using h⟩
            · exact Or.inr ⟨p, List.mem_cons_of_mem _ hp, hlt⟩
        · rintro ⟨hle, hstrict⟩
          refine ⟨fun p hp => hle p (List.mem_cons_of_mem _ hp), ?_⟩
          rcases hstrict with hacc | ⟨p, hp, hlt⟩
          · exact Or.inl (by simp [hacc])
          · rcases List.mem_cons.mp hp with h1 | h2
            · subst h1
              exact Or.inl (by simp [hlt])
            · exact Or.inr ⟨p, h2, hlt⟩

theorem dominates_iff_zip (A B : Individual) (hcv : A.cv = B.cv) :
    A.dominates B = true ↔
      ((∀ p ∈ A.f.zip B.f, p.1 ≤ p.2) ∧ ∃ p ∈ A.f.zip B.f, p.1 < p.2) := by
  unfold Individual.dominates
  rw [hcv]
  simp only [lt_irrefl, if_false, gt_iff_lt]
  rw [dominatesLoop_iff]
  simp

/-- Dominance is asymmetric: if `A` dominates `B` then `B` does not
dominate `A`. -/
theorem dominates_asymm (A B : Individual) (h : A.dominates B = true) :
    B.dominates A = false := by
  by_cases hlt : A.cv < B.cv
  · unfold Individual.dominates
    rw [if_neg (by exact not_lt.mpr hlt.le), if_pos (by exact hlt)]
  · by_cases hgt : B.cv < A.cv
    · exfalso
      unfold Individual.dominates at h
      rw [if_neg hlt, if_pos (by exact hgt)] at h
      exact Bool.false_ne_true h
    · have hcv : A.cv = B.cv := le_antisymm (not_lt.mp hgt) (not_lt.mp hlt)
      obtain ⟨hle, p, hp, hstrict⟩ := (dominates_iff_zip A B hcv).mp h
      rw [← Bool.not_eq_true]
      intro hBA
      obtain ⟨hle2, -⟩ := (dominates_iff_zip B A hcv.symm).mp hBA
      have := hle2 (p.2, p.1) (mem_zip_symm hp)
      exact absurd hstrict (by simpa using this)

theorem dominatesLoop_getD_iff : ∀ (as bs : List ℚ), as.length = bs.length →
    (dominatesLoop as bs false = true ↔
      ((∀ k < as.length, as.getD k 0 ≤ bs.getD k 0) ∧
        ∃ k < as.length, as.getD k 0 < bs.getD k 0))
  | [], [], _ => by simp [dominatesLoop]
  | [], b :: bs, h => by simp at h
  | a :: as, [], h => by simp at h
  | a :: as, b :: bs, h => by
      have hlen : as.length = bs.length := by simpa using h
      by_cases hab : a > b
      · simp only [dominatesLoop, if_pos hab]
        constructor
        · intro hf; exact absurd hf (by simp)
        · rintro ⟨hle, -⟩
          have := hle 0 (by simp)
          simp only [List.getD_cons_zero] at this
          exact absurd this (by simpa using hab)
      · push_neg at hab
        have hstep : dominatesLoop (a :: as) (b :: bs) false
            = dominatesLoop as bs (false || decide (a < b)) := by
          simp only [dominatesLoop, if_neg (by exact not_lt.mpr hab)]
        rw [hstep]
        by_cases hlt : a < b
        · rw [decide_eq_true hlt, Bool.or_true]
          rw [dominatesLoop_iff]
          constructor
          · rintro ⟨hle, -⟩
            refine ⟨?_, ⟨0, by simp, by simpa using hlt⟩⟩
            intro k hk
            match k with
            | 0 => simpa using hab
            | k + 1 =>
                simp only [List.getD_cons_succ]
                have hmem : (as.getD k 0, bs.getD k 0) ∈ as.zip bs := by
                  have hk2 : k < as.length := by simpa using hk
                  have hk3 : k < bs.length := by omega
                  have : as.zip bs = List.zipWith Prod.mk as bs := rfl
                  rw [List.getD_eq_getElem _ _ hk2, List.getD_eq_getElem _ _ hk3]
                  rw [List.mem_iff_getElem]
                  refine ⟨k, by simp [List.length_zip]; omega, ?_⟩
                  simp [List.getElem_zip]
                exact hle _ hmem
          · rintro ⟨hle, -⟩
            refine ⟨?_, Or.inl rfl⟩
            intro p hp
            rw [List.mem_iff_getElem] at hp
            obtain ⟨k, hk, hpk⟩ := hp
            have hk2 : k < as.length := by
              simp [List.length_zip] at hk; omega
            have := hle (k + 1) (by simpa using Nat.succ_lt_succ hk2)
            simp only [List.getD_cons_succ] at this
            rw [List.getD_eq_getElem _ _ hk2] at this
            rw [List.getD_eq_getElem _ _ (by omega : k < bs.length)] at this
            rw [← hpk]
            simpa [List.getElem_zip] using this
        · rw [decide_eq_false hlt, Bool.or_false]
          rw [dominatesLoop_getD_iff as bs hlen]
          constructor
          · rintro ⟨hle, k, hk, hstrict⟩
            refine ⟨?_, ⟨k + 1, by simpa using Nat.succ_lt_succ hk, by simpa using hstrict⟩⟩
            intro j hj
            match j with
            | 0 => simpa using hab
            | j + 1 => simpa using hle j (by simpa using hj)
          · rintro ⟨hle, k, hk, hstrict⟩
            refine ⟨fun j hj => by simpa using hle (j + 1) (by simpa using Nat.succ_lt_succ hj), ?_⟩
            match k with
            | 0 => exact absurd (by simpa using hstrict) hlt
            | k + 1 => exact ⟨k, by simpa using hk, by simpa using hstrict⟩

/-- C4: for candidates with equal constraint violation and objective
vectors of the same length `M`, `dominates` returns true iff every
objective of `A` is ≤ the corresponding objective of `B` and at least one
is strictly smaller. -/
theorem dominates_characterization (A B : Individual) (hcv : A.cv = B.cv)
    (hlen : A.f.length = B.f.length) :
    A.dominates B = true ↔
      ((∀ k < A.f.length, A.f.getD k 0 ≤ B.f.getD k 0) ∧
        ∃ k < A.f.length, A.f.getD k 0 < B.f.getD k 0) := by
  unfold Individual.dominates
  rw [hcv]
  simp only [lt_irrefl, if_false, gt_iff_lt]
  exact dominatesLoop_getD_iff A.f B.f hlen

/-- Concrete instance of C4 at the individuals of the repository's
`test_dominance` unit test. -/
theorem dominates_characterization_witness :
    ({ Individual.new [1, 1] with f := [1, 2] } : Individual).cv
        = ({ Individual.new [1, 1] with f := [2, 3] } : Individual).cv ∧
      ({ Individual.new [1, 1] with f := [1, 2] } : Individual).f.length
        = ({ Individual.new [1, 1] with f := [2, 3] } : Individual).f.length ∧
      (({ Individual.new [1, 1] with f := [1, 2] } : Individual).dominates
          { Individual.new [1, 1] with f := [2, 3] } = true ↔
        ((∀ k < ({ Individual.new [1, 1] with f := [1, 2] } : Individual).f.length,
            ({ Individual.new [1, 1] with f := [1, 2] } : Individual).f.getD k 0
              ≤ ({ Individual.new [1, 1] with f := [2, 3] } : Individual).f.getD k 0) ∧
          ∃ k < ({ Individual.new [1, 1] with f := [1, 2] } : Individual).f.length,
            ({ Individual.new [1, 1] with f := [1, 2] } : Individual).f.getD k 0
              < ({ Individual.new [1, 1] with f := [2, 3] } : Individual).f.getD k 0)) :=
  ⟨rfl, rfl, dominates_characterization _ _ rfl rfl⟩

/-! ### Hypervolume theorems -/

/-- C9: on the front with objectives (0.3, 0.8) and (0.5, 0.5) and
reference point (1, 1), `hypervolume_2d` is strictly between 0 and 1
(its exact value is 29/100) and repeated calls agree. -/
theorem hypervolume_concrete :
    0 < hypervolume_2d hvFrontEx (1, 1) ∧ hypervolume_2d hvFrontEx (1, 1) < 1 ∧
      hypervolume_2d hvFrontEx (1, 1) = hypervolume_2d hvFrontEx (1, 1) := by
  refine ⟨by decide, by decide, rfl⟩

theorem hvStep_fst_le (ref_point : ℚ × ℚ) (acc : ℚ × ℚ) (ind : Individual) :
    acc.1 ≤ (hvStep ref_point acc ind).1 := by
  unfold hvStep
  by_cases hc : ind.f.getD 0 0 < ref_point.1 ∧ ind.f.getD 1 0 < ref_point.2
  · rw [if_pos hc]
    by_cases hh : acc.2 - ind.f.getD 1 0 > 0
    · simp only [if_pos hh]
      have hw : (0 : ℚ) < ref_point.1 - ind.f.getD 0 0 := by
        have := hc.1; linarith
      nlinarith
    · simp only [if_neg hh]
      exact le_refl _
  · rw [if_neg hc]

theorem hvFold_fst_le (ref_point : ℚ × ℚ) :
    ∀ (l : List Individual) (acc : ℚ × ℚ),
      acc.1 ≤ (l.foldl (hvStep ref_point) acc).1
  | [], _ => le_refl _
  | ind :: l, acc =>
      le_trans (hvStep_fst_le ref_point acc ind) (hvFold_fst_le ref_point l _)

/-- C10: `hypervolume_2d` is nonnegative for every front and every
reference point: points not strictly better than the reference are
skipped and negative-height slices are never accumulated. -/
theorem hypervolume_nonneg (front : List Individual) (ref_point : ℚ × ℚ)
    (_hobj : ∀ ind ∈ front, 2 ≤ ind.f.length) :
    0 ≤ hypervolume_2d front ref_point := by
  unfold hypervolume_2d
  by_cases he : front.isEmpty
  · rw [if_pos he]
  · rw [if_neg he]
    exact hvFold_fst_le ref_point _ (0, ref_point.2)

/-- Concrete instance of C10 at a front whose reference point it does not
dominate. -/
theorem hypervolume_nonneg_witness :
    (∀ ind ∈ hvFrontEx, 2 ≤ ind.f.length) ∧
      0 ≤ hypervolume_2d hvFrontEx (0, 0) :=
  ⟨by decide, hypervolume_nonneg hvFrontEx (0, 0) (by decide)⟩

/-! ### The driver: front ranks, generation count, determinism,
absence of configuration validation -/

/-- C8: every individual in the `solutions` field of the front returned
by `optimize` has rank 0, and the returned `generation` field equals the
number of generation steps the driver executed (the main loop runs
exactly `config.generations` times). -/
theorem optimize_front_rank_zero (pf : ℚ → ℚ → ℚ) (o : NSGA2)
    (ev : List ℚ → List ℚ × ℚ × ℤ × List ℚ) :
    (NSGA2.optimize pf o ev).solutions.all (fun ind => ind.rank == 0) = true ∧
      (NSGA2.optimize pf o ev).generation = o.config.generations := by
  constructor
  · simp only [NSGA2.optimize, List.all_eq_true]
    intro ind hmem
    exact (List.mem_filter.mp hmem).2
  · rfl

theorem create_offspring_go_length (pf : ℚ → ℚ → ℚ) (cfg : NSGA2Config)
    (ev : List ℚ → List ℚ × ℚ × ℤ × List ℚ) (pop : List Individual) :
    ∀ (fuel : ℕ) (acc : List Individual) (s : ℕ),
      acc.length ≤ cfg.pop_size → cfg.pop_size - acc.length ≤ fuel →
      (create_offspring_go pf cfg ev pop fuel acc s).1.length = cfg.pop_size
  | 0, acc, s, hle, hfuel => by
      simp only [create_offspring_go]
      omega
  | fuel + 1, acc, s, hle, hfuel => by
      simp only [create_offspring_go]
      by_cases h1 : acc.length < cfg.pop_size
      · rw [if_pos h1]
        by_cases h2 : (acc ++ [evalInd ev (Individual.new
            (polynomial_mutation pf cfg (sbx_crossover pf cfg
              (pop.getD (tournament_select pop s).1 default).x
              (pop.getD (tournament_select pop (tournament_select pop s).2).1 default).x
              (tournament_select pop (tournament_select pop s).2).2).1.1
              (sbx_crossover pf cfg
                (pop.getD (tournament_select pop s).1 default).x
                (pop.getD (tournament_select pop (tournament_select pop s).2).1 default).x
                (tournament_select pop (tournament_select pop s).2).2).2).1)]).length
            < cfg.pop_size
        · rw [if_pos h2]
          apply create_offspring_go_length pf cfg ev pop fuel
          · simp only [List.length_append, List.length_singleton] at h2 ⊢
            omega
          · simp only [List.length_append, List.length_singleton] at h2 ⊢
            omega
        · rw [if_neg h2]
          apply create_offspring_go_length pf cfg ev pop fuel
          · simp only [List.length_append, List.length_singleton] at h2 ⊢
            omega
          · simp only [List.length_append, List.length_singleton] at h2 ⊢
            omega
      · rw [if_neg h1]
        show acc.length = cfg.pop_size
        omega

/-- C5: `create_offspring` always returns exactly `pop_size` offspring,
also when `pop_size` is odd (the surplus second child of the last pair is
not pushed). -/
theorem create_offspring_count (pf : ℚ → ℚ → ℚ) (cfg : NSGA2Config)
    (pop : List Individual) (ev : List ℚ → List ℚ × ℚ × ℤ × List ℚ) (s : ℕ) :
    (create_offspring pf cfg pop ev s).1.length = cfg.pop_size :=
  create_offspring_go_length pf cfg ev pop cfg.pop_size [] s
    (Nat.zero_le _) (by simp)

/-- C3: two runs of `optimize` constructed from identical configurations
(in particular the same seed), with extensionally equal deterministic
evaluators, produce the identical sequence of evaluated decision vectors
and the identical final front.  The optimizer draws randomness only from
the seeded LCG, so the whole run is a function of the configuration. -/
theorem optimize_deterministic (pf : ℚ → ℚ → ℚ) (c1 c2 : NSGA2Config)
    (ev1 ev2 : List ℚ → List ℚ × ℚ × ℤ × List ℚ)
    (hc : c1 = c2) (hev : ∀ x, ev1 x = ev2 x) :
    optimizeTrace pf (NSGA2.new c1) ev1 = optimizeTrace pf (NSGA2.new c2) ev2 ∧
      NSGA2.optimize pf (NSGA2.new c1) ev1 = NSGA2.optimize pf (NSGA2.new c2) ev2 := by
  subst hc
  have hev2 : ev1 = ev2 := funext hev
  subst hev2
  exact ⟨rfl, rfl⟩

/-- Concrete instance of C3: two identically configured runs agree. -/
theorem optimize_deterministic_witness :
    optimizeTrace pfEx (NSGA2.new cfgEx) evEx = optimizeTrace pfEx (NSGA2.new cfgEx) evEx ∧
      NSGA2.optimize pfEx (NSGA2.new cfgEx) evEx = NSGA2.optimize pfEx (NSGA2.new cfgEx) evEx :=
  optimize_deterministic pfEx cfgEx cfgEx evEx evEx rfl (fun _ => rfl)

theorem foldl_length_acc {α β γ : Type} (g : (List α × γ) → β → List α × γ)
    (hg : ∀ st b, (g st b).1.length = st.1.length + 1) :
    ∀ (l : List β) (st : List α × γ), (l.foldl g st).1.length = st.1.length + l.length
  | [], st => by simp
  | b :: l, st => by
      rw [List.foldl_cons, foldl_length_acc g hg l (g st b), hg]
      simp
      omega

theorem init_candidate_length (cfg : NSGA2Config) (indices : List (List ℕ))
    (acc : List Individual × ℕ) (i : ℕ) :
    (init_candidate cfg indices acc i).1.length = acc.1.length + 1 := by
  simp [init_candidate]

/-- The initial population has exactly `pop_size` members. -/
theorem initialize_population_length (cfg : NSGA2Config) (s : ℕ) :
    (initialize_population cfg s).1.length = cfg.pop_size := by
  simp only [initialize_population]
  rw [foldl_length_acc (init_candidate cfg _) (init_candidate_length cfg _)]
  simp

theorem trace_length_mono (pf : ℚ → ℚ → ℚ) (cfg : NSGA2Config)
    (ev : List ℚ → List ℚ × ℚ × ℤ × List ℚ) :
    ∀ (l : List ℕ) (st : (List Individual × ℕ) × List (List ℚ)),
      st.2.length ≤ (l.foldl (fun st2 _g => gen_step pf cfg ev st2) st).2.length
  | [], _ => le_refl _
  | g :: l, st => by
      rw [List.foldl_cons]
      refine le_trans ?_ (trace_length_mono pf cfg ev l _)
      simp only [gen_step, List.length_append]
      exact Nat.le_add_right _ _

/-- A run evaluates at least `pop_size` decision vectors (the whole
initial population is evaluated before the main loop). -/
theorem optimize_loop_trace_ge (pf : ℚ → ℚ → ℚ) (cfg : NSGA2Config)
    (ev : List ℚ → List ℚ × ℚ × ℤ × List ℚ) (s0 : ℕ) :
    cfg.pop_size ≤ (optimize_loop pf cfg ev s0).2.length := by
  simp only [optimize_loop]
  refine le_trans (le_of_eq ?_) (trace_length_mono pf cfg ev (List.range cfg.generations) _)
  simp [evaluate, initialize_population_length]

/-- C1 counterexample: on the invalid configuration `cfgBad` (its only
dimension has `lo = 1 > 0 = hi`), construction succeeds, the run executes
its generation step, four decision vectors are evaluated, and a front is
returned — no configuration error is reported to the caller. -/
theorem invalid_config_runs :
    (optimizeTrace pfEx (NSGA2.new cfgBad) evEx).length = 4 ∧
      (NSGA2.optimize pfEx (NSGA2.new cfgBad) evEx).generation = 1 :=
  ⟨by decide, rfl⟩

/-- C1 (amended): `NSGA2::new` stores any configuration unvalidated and
cannot fail, and `optimize` runs to completion on every configuration —
including ones with empty bounds, `lo > hi`, or `N = 0` — executing all
`generations` steps and returning a front; when `N > 0` candidates are
actually evaluated.  No configuration error is ever reported. -/
theorem new_and_optimize_never_fail (pf : ℚ → ℚ → ℚ) (cfg : NSGA2Config)
    (ev : List ℚ → List ℚ × ℚ × ℤ × List ℚ) :
    NSGA2.new cfg = { config := cfg, population := [], rng_state := cfg.seed } ∧
      (NSGA2.optimize pf (NSGA2.new cfg) ev).generation = cfg.generations ∧
      (0 < cfg.pop_size → optimizeTrace pf (NSGA2.new cfg) ev ≠ []) := by
  refine ⟨rfl, rfl, fun hn => ?_⟩
  have := optimize_loop_trace_ge pf cfg ev cfg.seed
  have hlen : 0 < (optimizeTrace pf (NSGA2.new cfg) ev).length := by
    simp only [optimizeTrace]
    exact lt_of_lt_of_le hn this
  exact List.ne_nil_of_length_pos hlen

/-- Concrete instance of the amended C1 at the invalid configuration
`cfgBad`. -/
theorem new_and_optimize_never_fail_witness :
    (0 < cfgBad.pop_size) ∧
      (NSGA2.new cfgBad = { config := cfgBad, population := [], rng_state := cfgBad.seed } ∧
        (NSGA2.optimize pfEx (NSGA2.new cfgBad) evEx).generation = cfgBad.generations ∧
        (0 < cfgBad.pop_size → optimizeTrace pfEx (NSGA2.new cfgBad) evEx ≠ [])) :=
  ⟨by decide, new_and_optimize_never_fail pfEx cfgBad evEx⟩

/-! ### Crowding distance: every front of size at most two gets
infinite distance (C7) -/

theorem getD_set_self2 {α : Type} (l : List α) (i : ℕ) (v d : α) (h : i < l.length) :
    (l.set i v).getD i d = v := by
  rw [List.getD_eq_getElem?_getD, List.getElem?_set_self h]
  rfl

theorem getD_set_of_ne {α : Type} (l : List α) (i j : ℕ) (v d : α) (h : i ≠ j) :
    (l.set i v).getD j d = l.getD j d := by
  rw [List.getD_eq_getElem?_getD, List.getElem?_set_ne h, ← List.getD_eq_getElem?_getD]

theorem getD_set_update (p : List Individual) (i j : ℕ) (e : Individual) :
    (p.set i e).getD j default
      = if i = j ∧ i < p.length then e else p.getD j default := by
  by_cases hij : i = j
  · subst hij
    by_cases hlen : i < p.length
    · rw [getD_set_self2 p i e default hlen, if_pos ⟨rfl, hlen⟩]
    · rw [List.set_eq_of_length_le (le_of_not_lt hlen), if_neg (fun hc => hlen hc.2)]
  · rw [getD_set_of_ne p i j e default hij, if_neg (fun hc => hij hc.1)]

theorem getD_setCrowding (p : List Individual) (i : ℕ) (c : WithTop ℚ) (j : ℕ) :
    (setCrowding p i c).getD j default
      = if i = j ∧ i < p.length then { p.getD i default with crowding_distance := c }
        else p.getD j default := getD_set_update p i j _

theorem getD_addCrowding (p : List Individual) (i : ℕ) (d : ℚ) (j : ℕ) :
    (addCrowding p i d).getD j default
      = if i = j ∧ i < p.length then
          { p.getD i default with
            crowding_distance := (p.getD i default).crowding_distance + (d : WithTop ℚ) }
        else p.getD j default := getD_set_update p i j _

theorem getD_setRank (p : List Individual) (i r j : ℕ) :
    (setRank p i r).getD j default
      = if i = j ∧ i < p.length then { p.getD i default with rank := r }
        else p.getD j default := getD_set_update p i j _

theorem length_setCrowding (p : List Individual) (i : ℕ) (c : WithTop ℚ) :
    (setCrowding p i c).length = p.length := List.length_set _ _ _

theorem length_addCrowding (p : List Individual) (i : ℕ) (d : ℚ) :
    (addCrowding p i d).length = p.length := List.length_set _ _ _

theorem length_setRank (p : List Individual) (i r : ℕ) :
    (setRank p i r).length = p.length := List.length_set _ _ _

theorem rank_setCrowding (p : List Individual) (i : ℕ) (c : WithTop ℚ) (j : ℕ) :
    ((setCrowding p i c).getD j default).rank = (p.getD j default).rank := by
  rw [getD_setCrowding]
  by_cases h : i = j ∧ i < p.length
  · rw [if_pos h]; rcases h with ⟨he, _⟩; subst he; rfl
  · rw [if_neg h]

theorem rank_addCrowding (p : List Individual) (i : ℕ) (d : ℚ) (j : ℕ) :
    ((addCrowding p i d).getD j default).rank = (p.getD j default).rank := by
  rw [getD_addCrowding]
  by_cases h : i = j ∧ i < p.length
  · rw [if_pos h]; rcases h with ⟨he, _⟩; subst he; rfl
  · rw [if_neg h]

theorem foldl_length_pres {β : Type} (g : List Individual → β → List Individual)
    (hg : ∀ q b, (g q b).length = q.length) :
    ∀ (l : List β) (q : List Individual), (l.foldl g q).length = q.length
  | [], _ => rfl
  | b :: l, q => by rw [List.foldl_cons, foldl_length_pres g hg l (g q b), hg]

theorem foldl_rank_pres {β : Type} (g : List Individual → β → List Individual)
    (hg : ∀ q b j, ((g q b).getD j default).rank = (q.getD j default).rank) :
    ∀ (l : List β) (q : List Individual) (j : ℕ),
      ((l.foldl g q).getD j default).rank = (q.getD j default).rank
  | [], _, _ => rfl
  | b :: l, q, j => by
      rw [List.foldl_cons, foldl_rank_pres g hg l (g q b) j, hg]

theorem length_crowdObjStep (st : List Individual × List ℕ) (m : ℕ) :
    (crowdObjStep st m).1.length = st.1.length := by
  simp only [crowdObjStep]
  rw [foldl_length_pres _ (fun q b => length_addCrowding _ _ _)]
  rw [length_setCrowding, length_setCrowding]

theorem rank_crowdObjStep (st : List Individual × List ℕ) (m : ℕ) (j : ℕ) :
    ((crowdObjStep st m).1.getD j default).rank = (st.1.getD j default).rank := by
  simp only [crowdObjStep]
  rw [foldl_rank_pres _ (fun q b k => rank_addCrowding _ _ _ _)]
  rw [rank_setCrowding, rank_setCrowding]

theorem crowdObj_fold_length : ∀ (ms : List ℕ) (st : List Individual × List ℕ),
    (ms.foldl crowdObjStep st).1.length = st.1.length
  | [], _ => rfl
  | m :: ms, st => by
      rw [List.foldl_cons, crowdObj_fold_length ms _, length_crowdObjStep]

theorem crowdObj_fold_rank : ∀ (ms : List ℕ) (st : List Individual × List ℕ) (j : ℕ),
    ((ms.foldl crowdObjStep st).1.getD j default).rank = (st.1.getD j default).rank
  | [], _, _ => rfl
  | m :: ms, st, j => by
      rw [List.foldl_cons, crowdObj_fold_rank ms _ j, rank_crowdObjStep]

theorem length_crowdFrontStep (n_obj : ℕ) (p : List Individual) (r : ℕ) :
    (crowdFrontStep n_obj p r).length = p.length := by
  simp only [crowdFrontStep]
  by_cases h : (frontOf p r).length ≤ 2
  · rw [if_pos h]
    exact foldl_length_pres _ (fun q b => List.length_set _ _ _) _ _
  · rw [if_neg h]
    exact crowdObj_fold_length _ _

theorem rank_crowdFrontStep (n_obj : ℕ) (p : List Individual) (r j : ℕ) :
    ((crowdFrontStep n_obj p r).getD j default).rank = (p.getD j default).rank := by
  simp only [crowdFrontStep]
  by_cases h : (frontOf p r).length ≤ 2
  · rw [if_pos h]
    exact foldl_rank_pres _ (fun q b k => rank_setCrowding _ _ _ _) _ _ _
  · rw [if_neg h]
    exact crowdObj_fold_rank _ _ _

theorem frontOf_congr (p q : List Individual) (hlen : p.length = q.length)
    (hrk : ∀ j, (p.getD j default).rank = (q.getD j default).rank) (r : ℕ) :
    frontOf p r = frontOf q r := by
  unfold frontOf
  rw [hlen]
  exact List.filter_congr (fun x _ => by rw [hrk x])

theorem mem_frontOf (p : List Individual) (r i : ℕ) :
    i ∈ frontOf p r ↔ i < p.length ∧ (p.getD i default).rank = r := by
  unfold frontOf
  rw [List.mem_filter, List.mem_range]
  simp

theorem mem_insertOrdered {α : Type} (le : α → α → Bool) (a x : α) :
    ∀ (l : List α), x ∈ insertOrdered le a l ↔ x = a ∨ x ∈ l
  | [] => by simp [insertOrdered]
  | b :: bs => by
      unfold insertOrdered
      by_cases h : le a b
      · rw [if_pos h]
        simp
      · rw [if_neg h]
        rw [List.mem_cons, mem_insertOrdered le a x bs, List.mem_cons]
        tauto

theorem mem_stableSortBy {α : Type} (le : α → α → Bool) (x : α) :
    ∀ (l : List α), x ∈ stableSortBy le l ↔ x ∈ l
  | [] => Iff.rfl
  | a :: l => by
      unfold stableSortBy
      rw [mem_insertOrdered, mem_stableSortBy le x l, List.mem_cons]

theorem length_insertOrdered {α : Type} (le : α → α → Bool) (a : α) :
    ∀ (l : List α), (insertOrdered le a l).length = l.length + 1
  | [] => rfl
  | b :: bs => by
      unfold insertOrdered
      by_cases h : le a b
      · rw [if_pos h]
        rfl
      · rw [if_neg h]
        simp [length_insertOrdered le a bs]

theorem length_stableSortBy {α : Type} (le : α → α → Bool) :
    ∀ (l : List α), (stableSortBy le l).length = l.length
  | [] => rfl
  | a :: l => by
      unfold stableSortBy
      rw [length_insertOrdered, length_stableSortBy le l]
      rfl

theorem getD_mem {α : Type} (l : List α) (k : ℕ) (d : α) (h : k < l.length) :
    l.getD k d ∈ l := by
  rw [List.getD_eq_getElem l d h]
  exact List.getElem_mem h

theorem foldl_setCrowding_not_mem (j : ℕ) :
    ∀ (l : List ℕ) (q : List Individual), j ∉ l →
      (l.foldl (fun q2 i => setCrowding q2 i ⊤) q).getD j default = q.getD j default
  | [], _, _ => rfl
  | i :: l, q, h => by
      rw [List.foldl_cons,
        foldl_setCrowding_not_mem j l _ (fun hc => h (List.mem_cons_of_mem _ hc))]
      rw [getD_setCrowding,
        if_neg (fun hc => h (by rw [← hc.1]; exact List.mem_cons_self i l))]

theorem foldl_setCrowding_mem (j : ℕ) :
    ∀ (l : List ℕ) (q : List Individual), j ∈ l → j < q.length →
      ((l.foldl (fun q2 i => setCrowding q2 i ⊤) q).getD j default).crowding_distance = ⊤
  | [], _, h, _ => absurd h (List.not_mem_nil j)
  | i :: l, q, h, hlen => by
      rw [List.foldl_cons]
      by_cases hmem : j ∈ l
      · exact foldl_setCrowding_mem j l _ hmem (by rw [length_setCrowding]; exact hlen)
      · have hij : i = j := by
          rcases List.mem_cons.mp h with h1 | h2
          · exact h1.symm
          · exact absurd h2 hmem
        rw [foldl_setCrowding_not_mem j l _ hmem]
        rw [getD_setCrowding, if_pos ⟨hij, by rw [hij]; exact hlen⟩]

theorem foldl_addCrowding_untouched (j : ℕ) (sorted : List ℕ) (hjs : j ∉ sorted)
    (δ : List Individual → ℕ → ℚ) :
    ∀ (ks : List ℕ), (∀ k ∈ ks, k < sorted.length) →
      ∀ (q : List Individual),
      (ks.foldl (fun q4 i => addCrowding q4 (sorted.getD i 0) (δ q4 i)) q).getD j default
        = q.getD j default
  | [], _, _ => rfl
  | k :: ks, hks, q => by
      rw [List.foldl_cons,
        foldl_addCrowding_untouched j sorted hjs δ ks
          (fun k2 hk2 => hks k2 (List.mem_cons_of_mem _ hk2)) _]
      rw [getD_addCrowding,
        if_neg (fun hc => hjs (by
          rw [← hc.1]
          exact getD_mem sorted k 0 (hks k (List.mem_cons_self k ks))))]

theorem crowdObjStep_snd (st : List Individual × List ℕ) (m : ℕ) :
    (crowdObjStep st m).2 = stableSortBy (crowdKey st.1 m) st.2 := by
  simp only [crowdObjStep]

theorem crowdObjStep_untouched (st : List Individual × List ℕ) (m : ℕ) (j : ℕ)
    (hj : j ∉ st.2) (hlen : 0 < st.2.length) :
    (crowdObjStep st m).1.getD j default = st.1.getD j default := by
  have hjs : j ∉ stableSortBy (crowdKey st.1 m) st.2 :=
    fun hc => hj ((mem_stableSortBy _ j _).mp hc)
  have hsl : (stableSortBy (crowdKey st.1 m) st.2).length = st.2.length :=
    length_stableSortBy _ _
  simp only [crowdObjStep]
  rw [foldl_addCrowding_untouched j _ hjs _ _
    (fun k hk => by
      have := List.mem_range'_1.mp hk
      omega)]
  rw [getD_setCrowding, if_neg (fun hc => hjs (by
    rw [← hc.1]
    exact getD_mem _ _ 0 (by omega)))]
  rw [getD_setCrowding, if_neg (fun hc => hjs (by
    rw [← hc.1]
    exact getD_mem _ 0 0 (by omega)))]

theorem crowdObj_fold_untouched (front : List ℕ) (j : ℕ) (hj : j ∉ front) :
    ∀ (ms : List ℕ) (st : List Individual × List ℕ),
      (∀ x ∈ st.2, x ∈ front) → st.2.length = front.length → 0 < front.length →
      (ms.foldl crowdObjStep st).1.getD j default = st.1.getD j default
  | [], _, _, _, _ => rfl
  | m :: ms, st, hsub, hlen, hpos => by
      rw [List.foldl_cons]
      have hj2 : j ∉ st.2 := fun hc => hj (hsub j hc)
      have hstep : (crowdObjStep st m).1.getD j default = st.1.getD j default :=
        crowdObjStep_untouched st m j hj2 (by omega)
      rw [crowdObj_fold_untouched front j hj ms (crowdObjStep st m)
        (fun x hx => hsub x ((mem_stableSortBy _ x _).mp (by
          rw [← crowdObjStep_snd]; exact hx)))
        (by rw [crowdObjStep_snd, length_stableSortBy]; exact hlen) hpos]
      exact hstep

theorem crowdFrontStep_untouched (n_obj : ℕ) (p : List Individual) (r j : ℕ)
    (hj : j ∉ frontOf p r) :
    (crowdFrontStep n_obj p r).getD j default = p.getD j default := by
  simp only [crowdFrontStep]
  by_cases h : (frontOf p r).length ≤ 2
  · rw [if_pos h]
    exact foldl_setCrowding_not_mem j _ _ hj
  · rw [if_neg h]
    exact crowdObj_fold_untouched (frontOf p r) j hj _ (p, frontOf p r)
      (fun x hx => hx) rfl (by omega)

theorem crowdFrontStep_small_top (n_obj : ℕ) (p : List Individual) (r j : ℕ)
    (hmem : j ∈ frontOf p r) (hsmall : (frontOf p r).length ≤ 2) :
    ((crowdFrontStep n_obj p r).getD j default).crowding_distance = ⊤ := by
  simp only [crowdFrontStep]
  rw [if_pos hsmall]
  exact foldl_setCrowding_mem j _ _ hmem ((mem_frontOf p r j).mp hmem).1

theorem crowdFront_fold_length (n_obj : ℕ) :
    ∀ (rs : List ℕ) (p : List Individual),
      (rs.foldl (fun q rank => crowdFrontStep n_obj q rank) p).length = p.length
  | [], _ => rfl
  | r :: rs, p => by
      rw [List.foldl_cons, crowdFront_fold_length n_obj rs _, length_crowdFrontStep]

theorem crowdFront_fold_rank (n_obj : ℕ) :
    ∀ (rs : List ℕ) (p : List Individual) (j : ℕ),
      ((rs.foldl (fun q rank => crowdFrontStep n_obj q rank) p).getD j default).rank
        = (p.getD j default).rank
  | [], _, _ => rfl
  | r :: rs, p, j => by
      rw [List.foldl_cons, crowdFront_fold_rank n_obj rs _ j, rank_crowdFrontStep]

theorem crowd_ranks_loop (n_obj : ℕ) (r : ℕ) :
    ∀ (rs : List ℕ) (p : List Individual) (j : ℕ),
      j < p.length → (p.getD j default).rank = r → (frontOf p r).length ≤ 2 →
      ((r ∈ rs →
        (((rs.foldl (fun q rank => crowdFrontStep n_obj q rank) p).getD j
          default).crowding_distance = ⊤)) ∧
       (r ∉ rs →
        (rs.foldl (fun q rank => crowdFrontStep n_obj q rank) p).getD j default
          = p.getD j default))
  | [], p, j, _, _, _ => ⟨fun h => absurd h (List.not_mem_nil r), fun _ => rfl⟩
  | r2 :: rs, p, j, hj, hrank, hsmall => by
      have hlen2 : j < (crowdFrontStep n_obj p r2).length := by
        rw [length_crowdFrontStep]; exact hj
      have hrank2 : ((crowdFrontStep n_obj p r2).getD j default).rank = r := by
        rw [rank_crowdFrontStep]; exact hrank
      have hfront2 : frontOf (crowdFrontStep n_obj p r2) r = frontOf p r :=
        frontOf_congr _ _ (length_crowdFrontStep n_obj p r2)
          (fun k => rank_crowdFrontStep n_obj p r2 k) r
      have hsmall2 : (frontOf (crowdFrontStep n_obj p r2) r).length ≤ 2 := by
        rw [hfront2]; exact hsmall
      have ih := crowd_ranks_loop n_obj r rs (crowdFrontStep n_obj p r2) j
        hlen2 hrank2 hsmall2
      by_cases hcase : r2 = r
      · subst hcase
        have hmem : j ∈ frontOf p r2 := (mem_frontOf p r2 j).mpr ⟨hj, hrank⟩
        have htop : ((crowdFrontStep n_obj p r2).getD j default).crowding_distance = ⊤ :=
          crowdFrontStep_small_top n_obj p r2 j hmem hsmall
        refine ⟨fun _ => ?_, fun hno => absurd (List.mem_cons_self r2 rs) hno⟩
        rw [List.foldl_cons]
        by_cases hrs : r2 ∈ rs
        · exact ih.1 hrs
        · rw [ih.2 hrs]
          exact htop
      · have hnot : j ∉ frontOf p r2 := fun hc => hcase (((mem_frontOf p r2 j).mp hc).2 ▸ hrank)
        have huntouched : (crowdFrontStep n_obj p r2).getD j default = p.getD j default :=
          crowdFrontStep_untouched n_obj p r2 j hnot
        constructor
        · intro hmem
          have hrs : r ∈ rs := by
            rcases List.mem_cons.mp hmem with h1 | h2
            · exact absurd h1.symm hcase
            · exact h2
          rw [List.foldl_cons]
          exact ih.1 hrs
        · intro hno
          have hrs : r ∉ rs := fun hc => hno (List.mem_cons_of_mem _ hc)
          rw [List.foldl_cons, ih.2 hrs]
          exact huntouched

theorem foldl_max_init : ∀ (l : List ℕ) (a : ℕ), a ≤ l.foldl max a
  | [], _ => le_refl _
  | b :: l, a => le_trans (le_max_left a b) (foldl_max_init l (max a b))

theorem le_foldl_max (x : ℕ) : ∀ (l : List ℕ) (a : ℕ), x ∈ l → x ≤ l.foldl max a
  | [], _, h => absurd h (List.not_mem_nil x)
  | b :: l, a, h => by
      rcases List.mem_cons.mp h with h1 | h2
      · subst h1
        exact le_trans (le_max_right a x) (foldl_max_init l _)
      · exact le_foldl_max x l _ h2

theorem rank_mem_map (p : List Individual) (j : ℕ) (hj : j < p.length) :
    (p.getD j default).rank ∈ p.map Individual.rank := by
  rw [List.getD_eq_getElem _ _ hj]
  exact List.mem_map.mpr ⟨p[j], List.getElem_mem hj, rfl⟩

theorem crowding_distance_eq (pop : List Individual) (h : ¬ pop.length = 0) :
    crowding_distance pop
      = (List.range (((crowd_reset pop).map Individual.rank).foldl max 0 + 1)).foldl
          (fun p rank => crowdFrontStep ((crowd_reset pop).headD default).f.length p rank)
          (crowd_reset pop) := by
  unfold crowding_distance
  rw [if_neg h]

/-- C7: after `crowding_distance`, every member of a front (the set of
candidates sharing one rank value) with at most two members has crowding
distance `+∞`. -/
theorem small_front_crowding_infinite (pop : List Individual) (j : ℕ)
    (hj : j < (crowding_distance pop).length)
    (hsmall : (frontOf (crowding_distance pop)
        (((crowding_distance pop).getD j default).rank)).length ≤ 2) :
    ((crowding_distance pop).getD j default).crowding_distance = ⊤ := by
  by_cases h0 : pop.length = 0
  · exfalso
    have hz : (crowding_distance pop).length = 0 := by
      unfold crowding_distance
      rw [if_pos h0, h0]
    omega
  · rw [crowding_distance_eq pop h0] at hj hsmall ⊢
    set pop1 := crowd_reset pop with hpop1
    set n_obj := ((pop1.headD default).f.length) with hnobj
    set max_rank := (pop1.map Individual.rank).foldl max 0 with hmax
    have hj1 : j < pop1.length := by
      rw [crowdFront_fold_length] at hj
      exact hj
    set r := ((((List.range (max_rank + 1)).foldl
      (fun p2 rank => crowdFrontStep n_obj p2 rank) pop1).getD j default).rank) with hr
    have hr1 : (pop1.getD j default).rank = r := by
      rw [hr, crowdFront_fold_rank]
    have hfr : frontOf ((List.range (max_rank + 1)).foldl
        (fun p2 rank => crowdFrontStep n_obj p2 rank) pop1) r = frontOf pop1 r := by
      refine frontOf_congr _ _ ?_ (fun k => ?_) r
      · exact crowdFront_fold_length n_obj _ pop1
      · exact crowdFront_fold_rank n_obj _ pop1 k
    have hsmall1 : (frontOf pop1 r).length ≤ 2 := by
      rw [← hfr]
      exact hsmall
    have hrmem : r ∈ List.range (max_rank + 1) := by
      rw [List.mem_range]
      have hle : r ≤ max_rank := by
        rw [← hr1, hmax]
        exact le_foldl_max _ _ 0 (rank_mem_map pop1 j hj1)
      omega
    exact (crowd_ranks_loop n_obj r (List.range (max_rank + 1)) pop1 j
      hj1 hr1 hsmall1).1 hrmem

/-- Concrete instance of C7: a two-member rank-0 population. -/
theorem small_front_crowding_infinite_witness :
    (0 < (crowding_distance popEx).length ∧
      (frontOf (crowding_distance popEx)
        (((crowding_distance popEx).getD 0 default).rank)).length ≤ 2) ∧
      ((crowding_distance popEx).getD 0 default).crowding_distance = ⊤ :=
  ⟨⟨by decide, by decide⟩,
    small_front_crowding_infinite popEx 0 (by decide) (by decide)⟩

/-! ### Non-dominated sorting: rank-0 members are mutually
non-dominating (C6) -/

theorem getD_set_split {α : Type} (l : List α) (i j : ℕ) (v d : α) :
    (l.set i v).getD j d = if i = j ∧ i < l.length then v else l.getD j d := by
  by_cases hij : i = j
  · subst hij
    by_cases hlen : i < l.length
    · rw [getD_set_self2 l i v d hlen, if_pos ⟨rfl, hlen⟩]
    · rw [List.set_eq_of_length_le (le_of_not_lt hlen), if_neg (fun hc => hlen hc.2)]
  · rw [getD_set_of_ne l i j v d hij, if_neg (fun hc => hij hc.1)]

theorem getD_oob {α : Type} (l : List α) (n : ℕ) (d : α) (h : l.length ≤ n) :
    l.getD n d = d := by
  rw [List.getD_eq_getElem?_getD, List.getElem?_eq_none h]
  rfl

theorem dominates_congr (A A2 B B2 : Individual) (hA : fcv A = fcv A2)
    (hB : fcv B = fcv B2) : A.dominates B = A2.dominates B2 := by
  unfold Individual.dominates
  have hAf : A.f = A2.f := congrArg Prod.fst hA
  have hAc : A.cv = A2.cv := congrArg Prod.snd hA
  have hBf : B.f = B2.f := congrArg Prod.fst hB
  have hBc : B.cv = B2.cv := congrArg Prod.snd hB
  rw [hAf, hAc, hBf, hBc]

theorem fcv_setRank (p : List Individual) (i r j : ℕ) :
    fcv ((setRank p i r).getD j default) = fcv (p.getD j default) := by
  rw [getD_setRank]
  by_cases h : i = j ∧ i < p.length
  · rw [if_pos h]
    rcases h with ⟨he, _⟩
    subst he
    rfl
  · rw [if_neg h]

theorem fcv_rank_reset (pop : List Individual) (j : ℕ) :
    fcv ((rank_reset pop).getD j default) = fcv (pop.getD j default) := by
  unfold rank_reset
  by_cases hj : j < pop.length
  · rw [List.getD_eq_getElem _ _ (by simpa using hj), List.getD_eq_getElem _ _ hj,
      List.getElem_map]
    rfl
  · rw [getD_oob _ _ _ (by simpa using le_of_not_lt hj), getD_oob _ _ _ (le_of_not_lt hj)]

theorem rank_rank_reset (pop : List Individual) (j : ℕ) :
    ((rank_reset pop).getD j default).rank = usizeMAX := by
  unfold rank_reset
  by_cases hj : j < pop.length
  · rw [List.getD_eq_getElem _ _ (by simpa using hj), List.getElem_map]
  · rw [getD_oob _ _ _ (by simpa using le_of_not_lt hj)]
    rfl

theorem length_domPairStep_counts (pop1 : List Individual)
    (acc : List ℕ × List (List ℕ)) (i j : ℕ) :
    (domPairStep pop1 acc i j).1.length = acc.1.length := by
  unfold domPairStep
  split
  · exact List.length_set _ _ _
  · split
    · exact List.length_set _ _ _
    · rfl

theorem counts_le_domPairStep (pop1 : List Individual)
    (acc : List ℕ × List (List ℕ)) (i j k : ℕ) :
    acc.1.getD k 0 ≤ (domPairStep pop1 acc i j).1.getD k 0 := by
  unfold domPairStep
  split
  · show acc.1.getD k 0 ≤ (acc.1.set j (acc.1.getD j 0 + 1)).getD k 0
    rw [getD_set_split]
    by_cases h : j = k ∧ j < acc.1.length
    · rw [if_pos h]
      rcases h with ⟨he, _⟩
      subst he
      omega
    · rw [if_neg h]
  · split
    · show acc.1.getD k 0 ≤ (acc.1.set i (acc.1.getD i 0 + 1)).getD k 0
      rw [getD_set_split]
      by_cases h : i = k ∧ i < acc.1.length
      · rw [if_pos h]
        rcases h with ⟨he, _⟩
        subst he
        omega
      · rw [if_neg h]
    · exact le_refl _

theorem counts_le_inner (pop1 : List Individual) (i : ℕ) :
    ∀ (js : List ℕ) (acc : List ℕ × List (List ℕ)) (k : ℕ),
      acc.1.getD k 0 ≤ ((js.foldl (fun acc2 j => domPairStep pop1 acc2 i j) acc)).1.getD k 0
  | [], _, _ => le_refl _
  | j :: js, acc, k =>
      le_trans (counts_le_domPairStep pop1 acc i j k) (counts_le_inner pop1 i js _ k)

theorem length_counts_inner (pop1 : List Individual) (i : ℕ) :
    ∀ (js : List ℕ) (acc : List ℕ × List (List ℕ)),
      ((js.foldl (fun acc2 j => domPairStep pop1 acc2 i j) acc)).1.length = acc.1.length
  | [], _ => rfl
  | j :: js, acc => by
      rw [List.foldl_cons, length_counts_inner pop1 i js _, length_domPairStep_counts]

theorem length_domOuterStep (pop1 : List Individual) (acc : List ℕ × List (List ℕ)) (i : ℕ) :
    (domOuterStep pop1 acc i).1.length = acc.1.length := by
  unfold domOuterStep
  exact length_counts_inner pop1 i _ acc

theorem counts_le_outer (pop1 : List Individual) :
    ∀ (is2 : List ℕ) (acc : List ℕ × List (List ℕ)) (k : ℕ),
      acc.1.getD k 0 ≤ ((is2.foldl (domOuterStep pop1) acc)).1.getD k 0
  | [], _, _ => le_refl _
  | i :: is2, acc, k => by
      refine le_trans ?_ (counts_le_outer pop1 is2 _ k)
      unfold domOuterStep
      exact counts_le_inner pop1 i _ acc k

theorem domPairStep_hit (pop1 : List Individual) (acc : List ℕ × List (List ℕ))
    (i0 j0 : ℕ) (hlen : acc.1.length = pop1.length) (hi : i0 < pop1.length)
    (hdom : (pop1.getD j0 default).dominates (pop1.getD i0 default) = true)
    (a b : ℕ) (hab : (a = j0 ∧ b = i0) ∨ (a = i0 ∧ b = j0)) :
    1 ≤ (domPairStep pop1 acc a b).1.getD i0 0 := by
  rcases hab with ⟨ha, hb⟩ | ⟨ha, hb⟩
  · rw [ha, hb]
    unfold domPairStep
    rw [if_pos hdom]
    show 1 ≤ (acc.1.set i0 (acc.1.getD i0 0 + 1)).getD i0 0
    rw [getD_set_split, if_pos ⟨rfl, by omega⟩]
    omega
  · rw [ha, hb]
    unfold domPairStep
    have hfalse : (pop1.getD i0 default).dominates (pop1.getD j0 default) = false :=
      dominates_asymm _ _ hdom
    rw [if_neg (by rw [hfalse]; exact Bool.false_ne_true), if_pos hdom]
    show 1 ≤ (acc.1.set i0 (acc.1.getD i0 0 + 1)).getD i0 0
    rw [getD_set_split, if_pos ⟨rfl, by omega⟩]
    omega

theorem inner_hit (pop1 : List Individual) (i0 j0 : ℕ) (hi : i0 < pop1.length)
    (hdom : (pop1.getD j0 default).dominates (pop1.getD i0 default) = true)
    (a b : ℕ) (hab : (a = j0 ∧ b = i0) ∨ (a = i0 ∧ b = j0)) :
    ∀ (js : List ℕ) (acc : List ℕ × List (List ℕ)),
      acc.1.length = pop1.length → b ∈ js →
      1 ≤ ((js.foldl (fun acc2 j => domPairStep pop1 acc2 a j) acc)).1.getD i0 0
  | [], _, _, hmem => absurd hmem (List.not_mem_nil b)
  | j :: js, acc, hlen, hmem => by
      rw [List.foldl_cons]
      by_cases hjb : j = b
      · subst hjb
        exact le_trans (domPairStep_hit pop1 acc i0 j0 hlen hi hdom a j hab)
          (counts_le_inner pop1 a js _ i0)
      · rcases List.mem_cons.mp hmem with h1 | h2
        · exact absurd h1.symm hjb
        · exact inner_hit pop1 i0 j0 hi hdom a b hab js _
            (by rw [length_domPairStep_counts]; exact hlen) h2

theorem outer_hit (pop1 : List Individual) (i0 j0 : ℕ) (hi : i0 < pop1.length)
    (hdom : (pop1.getD j0 default).dominates (pop1.getD i0 default) = true)
    (a b : ℕ) (hab : (a = j0 ∧ b = i0) ∨ (a = i0 ∧ b = j0))
    (hbmem : b ∈ List.range' (a + 1) (pop1.length - (a + 1))) :
    ∀ (is2 : List ℕ) (acc : List ℕ × List (List ℕ)),
      acc.1.length = pop1.length → a ∈ is2 →
      1 ≤ ((is2.foldl (domOuterStep pop1) acc)).1.getD i0 0
  | [], _, _, hmem => absurd hmem (List.not_mem_nil a)
  | i :: is2, acc, hlen, hmem => by
      rw [List.foldl_cons]
      by_cases hia : i = a
      · subst hia
        refine le_trans ?_ (counts_le_outer pop1 is2 _ i0)
        unfold domOuterStep
        exact inner_hit pop1 i0 j0 hi hdom i b hab _ acc hlen hbmem
      · rcases List.mem_cons.mp hmem with h1 | h2
        · exact absurd h1.symm hia
        · exact outer_hit pop1 i0 j0 hi hdom a b hab hbmem is2 _
            (by rw [length_domOuterStep]; exact hlen) h2

/-- If some pool member dominates candidate `i0`, the domination count of
`i0` is positive. -/
theorem counts_pos (pop1 : List Individual) (i0 j0 : ℕ) (hi : i0 < pop1.length)
    (hj : j0 < pop1.length) (hne : j0 ≠ i0)
    (hdom : (pop1.getD j0 default).dominates (pop1.getD i0 default) = true) :
    1 ≤ (domination_data pop1).1.getD i0 0 := by
  unfold domination_data
  rcases lt_or_gt_of_ne hne with hlt | hgt
  · exact outer_hit pop1 i0 j0 hi hdom j0 i0 (Or.inl ⟨rfl, rfl⟩)
      (by rw [List.mem_range'_1]; omega) (List.range pop1.length) _
      (by simp) (by rw [List.mem_range]; omega)
  · exact outer_hit pop1 i0 j0 hi hdom i0 j0 (Or.inr ⟨rfl, rfl⟩)
      (by rw [List.mem_range'_1]; omega) (List.range pop1.length) _
      (by simp) (by rw [List.mem_range]; omega)

theorem bfsDecStep_rank0 (frontIdx : ℕ) (st2 : List Individual × List ℕ × List ℕ)
    (j2 j : ℕ)
    (h : (((bfsDecStep frontIdx st2 j2)).1.getD j default).rank = 0) :
    (st2.1.getD j default).rank = 0 := by
  simp only [bfsDecStep] at h
  split at h
  · rw [getD_setRank] at h
    by_cases hc : j2 = j ∧ j2 < st2.1.length
    · rw [if_pos hc] at h
      simp at h
    · rwa [if_neg hc] at h
  · exact h

theorem foldl_decStep_rank0 (frontIdx : ℕ) :
    ∀ (l : List ℕ) (st : List Individual × List ℕ × List ℕ) (j : ℕ),
      (((l.foldl (bfsDecStep frontIdx) st)).1.getD j default).rank = 0 →
      (st.1.getD j default).rank = 0
  | [], _, _ => id
  | b :: l, st, j => fun h =>
      bfsDecStep_rank0 frontIdx st b j
        (foldl_decStep_rank0 frontIdx l _ j (by rwa [List.foldl_cons] at h))

theorem foldl_bfsInner_rank0 (domBy : List (List ℕ)) (frontIdx : ℕ) :
    ∀ (l : List ℕ) (st : List Individual × List ℕ × List ℕ) (j : ℕ),
      (((l.foldl (bfsInner domBy frontIdx) st)).1.getD j default).rank = 0 →
      (st.1.getD j default).rank = 0
  | [], _, _ => id
  | b :: l, st, j => by
      intro h
      rw [List.foldl_cons] at h
      have h2 := foldl_bfsInner_rank0 domBy frontIdx l _ j h
      unfold bfsInner at h2
      exact foldl_decStep_rank0 frontIdx _ st j h2

theorem bfsFronts_rank0 (domBy : List (List ℕ)) :
    ∀ (fuel : ℕ) (pop : List Individual) (counts front : List ℕ) (frontIdx j : ℕ),
      (((bfsFronts domBy fuel pop counts front frontIdx)).getD j default).rank = 0 →
      (pop.getD j default).rank = 0
  | 0, _, _, _, _, _ => id
  | fuel + 1, pop, counts, front, frontIdx, j => by
      intro h
      simp only [bfsFronts] at h
      by_cases he : front.isEmpty
      · rwa [if_pos he] at h
      · rw [if_neg he] at h
        have h2 := bfsFronts_rank0 domBy fuel _ _ _ _ j h
        exact foldl_bfsInner_rank0 domBy frontIdx front (pop, counts, []) j h2

theorem foldl_setRank0_rank0 :
    ∀ (l : List ℕ) (p : List Individual) (j : ℕ),
      (((l.foldl (fun p2 i => setRank p2 i 0) p)).getD j default).rank = 0 →
      j ∈ l ∨ (p.getD j default).rank = 0
  | [], _, _ => fun h => Or.inr h
  | i :: l, p, j => by
      intro h
      rw [List.foldl_cons] at h
      rcases foldl_setRank0_rank0 l _ j h with hmem | hrk
      · exact Or.inl (List.mem_cons_of_mem _ hmem)
      · by_cases hc : i = j ∧ i < p.length
        · exact Or.inl (List.mem_cons.mpr (Or.inl hc.1.symm))
        · rw [getD_setRank, if_neg hc] at hrk
          exact Or.inr hrk

theorem fcv_foldl_setRank0 :
    ∀ (l : List ℕ) (p : List Individual) (j : ℕ),
      fcv (((l.foldl (fun p2 i => setRank p2 i 0) p)).getD j default)
        = fcv (p.getD j default)
  | [], _, _ => rfl
  | i :: l, p, j => by
      rw [List.foldl_cons, fcv_foldl_setRank0 l _ j, fcv_setRank]

theorem fcv_bfsDecStep (frontIdx : ℕ) (st2 : List Individual × List ℕ × List ℕ)
    (j2 j : ℕ) :
    fcv (((bfsDecStep frontIdx st2 j2)).1.getD j default) = fcv (st2.1.getD j default) := by
  simp only [bfsDecStep]
  split
  · exact fcv_setRank st2.1 j2 (frontIdx + 1) j
  · rfl

theorem fcv_foldl_decStep (frontIdx : ℕ) :
    ∀ (l : List ℕ) (st : List Individual × List ℕ × List ℕ) (j : ℕ),
      fcv (((l.foldl (bfsDecStep frontIdx) st)).1.getD j default)
        = fcv (st.1.getD j default)
  | [], _, _ => rfl
  | b :: l, st, j => by
      rw [List.foldl_cons, fcv_foldl_decStep frontIdx l _ j, fcv_bfsDecStep]

theorem fcv_foldl_bfsInner (domBy : List (List ℕ)) (frontIdx : ℕ) :
    ∀ (l : List ℕ) (st : List Individual × List ℕ × List ℕ) (j : ℕ),
      fcv (((l.foldl (bfsInner domBy frontIdx) st)).1.getD j default)
        = fcv (st.1.getD j default)
  | [], _, _ => rfl
  | b :: l, st, j => by
      rw [List.foldl_cons, fcv_foldl_bfsInner domBy frontIdx l _ j]
      exact fcv_foldl_decStep frontIdx _ st j

theorem fcv_bfsFronts (domBy : List (List ℕ)) :
    ∀ (fuel : ℕ) (pop : List Individual) (counts front : List ℕ) (frontIdx j : ℕ),
      fcv (((bfsFronts domBy fuel pop counts front frontIdx)).getD j default)
        = fcv (pop.getD j default)
  | 0, _, _, _, _, _ => rfl
  | fuel + 1, pop, counts, front, frontIdx, j => by
      simp only [bfsFronts]
      by_cases he : front.isEmpty
      · rw [if_pos he]
      · rw [if_neg he]
        rw [fcv_bfsFronts domBy fuel _ _ _ _ j]
        exact fcv_foldl_bfsInner domBy frontIdx front (pop, counts, []) j

theorem length_bfsDecStep (frontIdx : ℕ) (st2 : List Individual × List ℕ × List ℕ)
    (j2 : ℕ) : ((bfsDecStep frontIdx st2 j2)).1.length = st2.1.length := by
  simp only [bfsDecStep]
  split
  · exact length_setRank _ _ _
  · rfl

theorem length_foldl_decStep (frontIdx : ℕ) :
    ∀ (l : List ℕ) (st : List Individual × List ℕ × List ℕ),
      ((l.foldl (bfsDecStep frontIdx) st)).1.length = st.1.length
  | [], _ => rfl
  | b :: l, st => by
      rw [List.foldl_cons, length_foldl_decStep frontIdx l _, length_bfsDecStep]

theorem length_foldl_bfsInner (domBy : List (List ℕ)) (frontIdx : ℕ) :
    ∀ (l : List ℕ) (st : List Individual × List ℕ × List ℕ),
      ((l.foldl (bfsInner domBy frontIdx) st)).1.length = st.1.length
  | [], _ => rfl
  | b :: l, st => by
      rw [List.foldl_cons, length_foldl_bfsInner domBy frontIdx l _]
      exact length_foldl_decStep frontIdx _ st

theorem length_bfsFronts (domBy : List (List ℕ)) :
    ∀ (fuel : ℕ) (pop : List Individual) (counts front : List ℕ) (frontIdx : ℕ),
      ((bfsFronts domBy fuel pop counts front frontIdx)).length = pop.length
  | 0, _, _, _, _ => rfl
  | fuel + 1, pop, counts, front, frontIdx => by
      simp only [bfsFronts]
      by_cases he : front.isEmpty
      · rw [if_pos he]
      · rw [if_neg he]
        rw [length_bfsFronts domBy fuel _ _ _ _]
        exact length_foldl_bfsInner domBy frontIdx front (pop, counts, [])

theorem non_dominated_sort_eq (pop : List Individual) :
    non_dominated_sort pop
      = bfsFronts (domination_data (rank_reset pop)).2 (pop.length + 1)
          (((List.range pop.length).filter
              (fun i => (domination_data (rank_reset pop)).1.getD i 0 == 0)).foldl
            (fun p i => setRank p i 0) (rank_reset pop))
          (domination_data (rank_reset pop)).1
          ((List.range pop.length).filter
            (fun i => (domination_data (rank_reset pop)).1.getD i 0 == 0)) 0 := rfl

theorem length_non_dominated_sort (pop : List Individual) :
    (non_dominated_sort pop).length = pop.length := by
  rw [non_dominated_sort_eq, length_bfsFronts]
  rw [foldl_length_pres _ (fun q b => length_setRank _ _ _)]
  exact List.length_map _ _

/-- C6: after `non_dominated_sort`, any two distinct candidates that both
received rank 0 are mutually non-dominating (stated for an ordered pair;
instantiating it with the pair swapped gives the other direction). -/
theorem rank0_pairwise_nondominating (pop : List Individual) (i j : ℕ)
    (hi : i < (non_dominated_sort pop).length) (hj : j < (non_dominated_sort pop).length)
    (hne : i ≠ j)
    (_hri : ((non_dominated_sort pop).getD i default).rank = 0)
    (hrj : ((non_dominated_sort pop).getD j default).rank = 0) :
    ((non_dominated_sort pop).getD i default).dominates
      ((non_dominated_sort pop).getD j default) = false := by
  have hlen := length_non_dominated_sort pop
  have hlen1 : (rank_reset pop).length = pop.length := List.length_map _ _
  have hic : i < (rank_reset pop).length := by omega
  have hjc : j < (rank_reset pop).length := by omega
  have hfcv : ∀ k, fcv ((non_dominated_sort pop).getD k default)
      = fcv ((rank_reset pop).getD k default) := by
    intro k
    rw [non_dominated_sort_eq, fcv_bfsFronts]
    exact fcv_foldl_setRank0 _ _ k
  rw [non_dominated_sort_eq] at hrj
  have hj2 := bfsFronts_rank0 _ _ _ _ _ _ j hrj
  rcases foldl_setRank0_rank0 _ _ j hj2 with hmem | hbad
  · have hcnt : (domination_data (rank_reset pop)).1.getD j 0 = 0 := by
      have hb := (List.mem_filter.mp hmem).2
      simpa using hb
    have hnotdom : ((rank_reset pop).getD i default).dominates
        ((rank_reset pop).getD j default) = false := by
      cases hb : ((rank_reset pop).getD i default).dominates
          ((rank_reset pop).getD j default) with
      | false => rfl
      | true =>
          have hpos := counts_pos (rank_reset pop) j i hjc hic hne hb
          omega
    calc ((non_dominated_sort pop).getD i default).dominates
          ((non_dominated_sort pop).getD j default)
        = ((rank_reset pop).getD i default).dominates
            ((rank_reset pop).getD j default) :=
          dominates_congr _ _ _ _ (hfcv i) (hfcv j)
      _ = false := hnotdom
  · rw [rank_rank_reset] at hbad
    exact absurd hbad (by norm_num [usizeMAX])

/-- Concrete instance of C6: two mutually non-dominating individuals both
receive rank 0 and neither dominates the other after sorting. -/
theorem rank0_pairwise_nondominating_witness :
    (0 < (non_dominated_sort popEx2).length ∧
      1 < (non_dominated_sort popEx2).length ∧
      ((non_dominated_sort popEx2).getD 0 default).rank = 0 ∧
      ((non_dominated_sort popEx2).getD 1 default).rank = 0) ∧
      ((non_dominated_sort popEx2).getD 0 default).dominates
        ((non_dominated_sort popEx2).getD 1 default) = false :=
  ⟨⟨by decide, by decide, by decide, by decide⟩,
    rank0_pairwise_nondominating popEx2 0 1 (by decide) (by decide)
      (by decide) (by decide) (by decide)⟩

/-! ### Bounds invariant (C2): basic lemmas -/

theorem set_getD_self {α : Type} : ∀ (l : List α) (i : ℕ) (d : α),
    l.set i (l.getD i d) = l
  | [], _, _ => rfl
  | _ :: _, 0, _ => rfl
  | a :: l, i + 1, d => by
      simp only [List.set_cons_succ, List.getD_cons_succ]
      rw [set_getD_self l i d]

theorem getD_concat_self {α : Type} : ∀ (l : List α) (v d : α),
    (l ++ [v]).getD l.length d = v
  | [], _, _ => rfl
  | a :: l, v, d => by
      simp only [List.cons_append, List.length_cons, List.getD_cons_succ]
      exact getD_concat_self l v d

theorem getD_append_left {α : Type} : ∀ (l l2 : List α) (k : ℕ) (d : α),
    k < l.length → (l ++ l2).getD k d = l.getD k d
  | [], _, _, _, h => absurd h (by simp)
  | _ :: _, _, 0, _, _ => rfl
  | a :: l, l2, k + 1, d, h => by
      simp only [List.cons_append, List.getD_cons_succ]
      exact getD_append_left l l2 k d (by simpa using h)

theorem getD_concat_of_len {α : Type} (l : List α) (v d : α) (k : ℕ)
    (h : l.length = k) : (l ++ [v]).getD k d = v := by
  subst h
  exact getD_concat_self l v d

theorem vecInBounds_iff (bounds : List (ℚ × ℚ)) (x : List ℚ) :
    vecInBounds bounds x = true ↔
      (x.length = bounds.length ∧
        ∀ k, k < x.length → geneInB (bounds.getD k (0, 0)) (x.getD k 0) = true) := by
  unfold vecInBounds
  rw [Bool.and_eq_true, beq_iff_eq, List.all_eq_true]
  constructor
  · rintro ⟨h1, h2⟩
    exact ⟨h1, fun k hk => h2 k (List.mem_range.mpr hk)⟩
  · rintro ⟨h1, h2⟩
    exact ⟨h1, fun k hk => h2 k (List.mem_range.mp hk)⟩

theorem vecInBounds_set (bounds : List (ℚ × ℚ)) (x : List ℚ) (i : ℕ) (v : ℚ)
    (hx : vecInBounds bounds x = true)
    (hv : geneInB (bounds.getD i (0, 0)) v = true) :
    vecInBounds bounds (x.set i v) = true := by
  rw [vecInBounds_iff] at hx ⊢
  obtain ⟨hlen, hall⟩ := hx
  refine ⟨by rw [List.length_set]; exact hlen, ?_⟩
  intro k hk
  rw [List.length_set] at hk
  rw [getD_set_split]
  by_cases hc : i = k ∧ i < x.length
  · rw [if_pos hc]
    rcases hc with ⟨he, _⟩
    subst he
    exact hv
  · rw [if_neg hc]
    exact hall k hk

theorem geneInB_clamp (b : ℚ × ℚ) (v : ℚ) (h : b.1 ≤ b.2) :
    geneInB b (min (max v b.1) b.2) = true := by
  unfold geneInB
  simp only [Bool.and_eq_true, decide_eq_true_eq]
  exact ⟨le_min (le_max_right v b.1) h, min_le_right _ _⟩

theorem bndOK_getD (bounds : List (ℚ × ℚ)) (hb : bndOK bounds = true) (k : ℕ)
    (hk : k < bounds.length) :
    (bounds.getD k (0, 0)).1 ≤ (bounds.getD k (0, 0)).2 := by
  unfold bndOK at hb
  rw [List.all_eq_true] at hb
  have hmem := hb _ (getD_mem bounds k (0, 0) hk)
  simpa using hmem

theorem popInBounds_eq_all_map (b : List (ℚ × ℚ)) :
    ∀ (p : List Individual),
      popInBounds b p = (p.map Individual.x).all (fun v => vecInBounds b v)
  | [] => rfl
  | ind :: p => by
      show (vecInBounds b ind.x && (p.all fun i => vecInBounds b i.x))
        = (vecInBounds b ind.x && (p.map Individual.x).all fun v => vecInBounds b v)
      rw [← popInBounds_eq_all_map b p]
      rfl

theorem popInBounds_eq_of_map_x (b : List (ℚ × ℚ)) (p q : List Individual)
    (h : p.map Individual.x = q.map Individual.x) :
    popInBounds b p = popInBounds b q := by
  rw [popInBounds_eq_all_map, popInBounds_eq_all_map, h]

/-! Preservation of the decision vectors (`map Individual.x`) by every
rank/crowding bookkeeping operation. -/

theorem map_x_set_update (p : List Individual) (i : ℕ) (e : Individual)
    (he : e.x = (p.getD i default).x) :
    (p.set i e).map Individual.x = p.map Individual.x := by
  rw [List.map_set, he]
  by_cases hi : i < p.length
  · have hg : (p.getD i default).x = (p.map Individual.x).getD i (Individual.x default) :=
      (List.getD_map p default Individual.x).symm
    rw [hg, set_getD_self]
  · rw [List.set_eq_of_length_le (by simpa using le_of_not_lt hi)]

theorem map_x_setRank (p : List Individual) (i r : ℕ) :
    (setRank p i r).map Individual.x = p.map Individual.x :=
  map_x_set_update p i _ rfl

theorem map_x_setCrowding (p : List Individual) (i : ℕ) (c : WithTop ℚ) :
    (setCrowding p i c).map Individual.x = p.map Individual.x :=
  map_x_set_update p i _ rfl

theorem map_x_addCrowding (p : List Individual) (i : ℕ) (d : ℚ) :
    (addCrowding p i d).map Individual.x = p.map Individual.x :=
  map_x_set_update p i _ rfl

theorem foldl_map_x_pres {β : Type} (g : List Individual → β → List Individual)
    (hg : ∀ q b, (g q b).map Individual.x = q.map Individual.x) :
    ∀ (l : List β) (q : List Individual),
      (l.foldl g q).map Individual.x = q.map Individual.x
  | [], _ => rfl
  | b :: l, q => by
      rw [List.foldl_cons, foldl_map_x_pres g hg l (g q b), hg]

theorem map_x_crowdObjStep (st : List Individual × List ℕ) (m : ℕ) :
    (crowdObjStep st m).1.map Individual.x = st.1.map Individual.x := by
  simp only [crowdObjStep]
  rw [foldl_map_x_pres _ (fun q b => map_x_addCrowding _ _ _)]
  rw [map_x_setCrowding, map_x_setCrowding]

theorem map_x_crowdObj_fold : ∀ (ms : List ℕ) (st : List Individual × List ℕ),
    ((ms.foldl crowdObjStep st)).1.map Individual.x = st.1.map Individual.x
  | [], _ => rfl
  | m :: ms, st => by
      rw [List.foldl_cons, map_x_crowdObj_fold ms _, map_x_crowdObjStep]

theorem map_x_crowdFrontStep (n_obj : ℕ) (p : List Individual) (r : ℕ) :
    (crowdFrontStep n_obj p r).map Individual.x = p.map Individual.x := by
  simp only [crowdFrontStep]
  by_cases h : (frontOf p r).length ≤ 2
  · rw [if_pos h]
    exact foldl_map_x_pres _ (fun q b => map_x_setCrowding _ _ _) _ _
  · rw [if_neg h]
    exact map_x_crowdObj_fold _ _

theorem map_x_crowd_reset (pop : List Individual) :
    (crowd_reset pop).map Individual.x = pop.map Individual.x := by
  unfold crowd_reset
  rw [List.map_map]
  have hc : (Individual.x ∘ fun ind =>
      { ind with crowding_distance := (0 : WithTop ℚ) }) = Individual.x :=
    funext (fun ind => rfl)
  rw [hc]

theorem map_x_crowding_distance (pop : List Individual) :
    (crowding_distance pop).map Individual.x = pop.map Individual.x := by
  by_cases h : pop.length = 0
  · unfold crowding_distance
    rw [if_pos h]
  · rw [crowding_distance_eq pop h]
    rw [foldl_map_x_pres _ (fun q b => map_x_crowdFrontStep _ _ _)]
    exact map_x_crowd_reset pop

theorem map_x_bfsDecStep (frontIdx : ℕ) (st2 : List Individual × List ℕ × List ℕ)
    (j2 : ℕ) :
    ((bfsDecStep frontIdx st2 j2)).1.map Individual.x = st2.1.map Individual.x := by
  simp only [bfsDecStep]
  split
  · exact map_x_setRank _ _ _
  · rfl

theorem map_x_foldl_decStep (frontIdx : ℕ) :
    ∀ (l : List ℕ) (st : List Individual × List ℕ × List ℕ),
      ((l.foldl (bfsDecStep frontIdx) st)).1.map Individual.x = st.1.map Individual.x
  | [], _ => rfl
  | b :: l, st => by
      rw [List.foldl_cons, map_x_foldl_decStep frontIdx l _, map_x_bfsDecStep]

theorem map_x_foldl_bfsInner (domBy : List (List ℕ)) (frontIdx : ℕ) :
    ∀ (l : List ℕ) (st : List Individual × List ℕ × List ℕ),
      ((l.foldl (bfsInner domBy frontIdx) st)).1.map Individual.x = st.1.map Individual.x
  | [], _ => rfl
  | b :: l, st => by
      rw [List.foldl_cons, map_x_foldl_bfsInner domBy frontIdx l _]
      exact map_x_foldl_decStep frontIdx _ st

theorem map_x_bfsFronts (domBy : List (List ℕ)) :
    ∀ (fuel : ℕ) (pop : List Individual) (counts front : List ℕ) (frontIdx : ℕ),
      ((bfsFronts domBy fuel pop counts front frontIdx)).map Individual.x
        = pop.map Individual.x
  | 0, _, _, _, _ => rfl
  | fuel + 1, pop, counts, front, frontIdx => by
      simp only [bfsFronts]
      by_cases he : front.isEmpty
      · rw [if_pos he]
      · rw [if_neg he]
        rw [map_x_bfsFronts domBy fuel _ _ _ _]
        exact map_x_foldl_bfsInner domBy frontIdx front (pop, counts, [])

theorem map_x_rank_reset (pop : List Individual) :
    (rank_reset pop).map Individual.x = pop.map Individual.x := by
  unfold rank_reset
  rw [List.map_map]
  have hc : (Individual.x ∘ fun ind => { ind with rank := usizeMAX }) = Individual.x :=
    funext (fun ind => rfl)
  rw [hc]

theorem map_x_non_dominated_sort (pop : List Individual) :
    (non_dominated_sort pop).map Individual.x = pop.map Individual.x := by
  rw [non_dominated_sort_eq, map_x_bfsFronts]
  rw [foldl_map_x_pres _ (fun q b => map_x_setRank _ _ _)]
  exact map_x_rank_reset pop

theorem map_x_evaluate (ev : List ℚ → List ℚ × ℚ × ℤ × List ℚ) (pop : List Individual) :
    (evaluate ev pop).map Individual.x = pop.map Individual.x := by
  unfold evaluate
  rw [List.map_map]
  have hc : (Individual.x ∘ evalInd ev) = Individual.x := funext (fun ind => rfl)
  rw [hc]

/-! Initialization stays in bounds. -/

theorem listSwap_mem_lt (n : ℕ) (hn : 0 < n) (l : List ℕ) (hl : ∀ v ∈ l, v < n)
    (i j : ℕ) : ∀ v ∈ listSwap l i j, v < n := by
  intro v hv
  unfold listSwap at hv
  rcases List.mem_or_eq_of_mem_set hv with hv2 | hveq
  · rcases List.mem_or_eq_of_mem_set hv2 with hv3 | hveq2
    · exact hl v hv3
    · subst hveq2
      by_cases hj : j < l.length
      · exact hl _ (getD_mem l j 0 hj)
      · rw [getD_oob _ _ _ (le_of_not_lt hj)]
        exact hn
  · subst hveq
    by_cases hi : i < l.length
    · exact hl _ (getD_mem l i 0 hi)
    · rw [getD_oob _ _ _ (le_of_not_lt hi)]
      exact hn

theorem foldl_swap_mem_lt (n : ℕ) (hn : 0 < n) :
    ∀ (is2 : List ℕ) (acc : List ℕ × ℕ), (∀ v ∈ acc.1, v < n) →
      ∀ v ∈ ((is2.foldl (fun acc2 i =>
          (listSwap acc2.1 i (rand_int (i + 1) acc2.2).1,
            (rand_int (i + 1) acc2.2).2)) acc)).1,
        v < n
  | [], _, h => h
  | i :: is2, acc, h => by
      rw [List.foldl_cons]
      exact foldl_swap_mem_lt n hn is2 _ (listSwap_mem_lt n hn acc.1 h i _)

theorem shuffle_dim_mem_lt (n : ℕ) (hn : 0 < n) (dim : List ℕ)
    (hdim : ∀ v ∈ dim, v < n) (s : ℕ) : ∀ v ∈ (shuffle_dim dim s).1, v < n := by
  unfold shuffle_dim
  exact foldl_swap_mem_lt n hn _ (dim, s) hdim

theorem shuffled_dims_mem_lt (n : ℕ) (hn : 0 < n) :
    ∀ (dims : List (List ℕ)) (acc : List (List ℕ) × ℕ),
      (∀ dim ∈ dims, ∀ v ∈ dim, v < n) → (∀ dim ∈ acc.1, ∀ v ∈ dim, v < n) →
      ∀ dim ∈ ((dims.foldl (fun acc2 dim =>
          (acc2.1 ++ [(shuffle_dim dim acc2.2).1], (shuffle_dim dim acc2.2).2)) acc)).1,
        ∀ v ∈ dim, v < n
  | [], _, _, hacc => hacc
  | dim :: dims, acc, hdims, hacc => by
      rw [List.foldl_cons]
      refine shuffled_dims_mem_lt n hn dims _
        (fun d hd => hdims d (List.mem_cons_of_mem _ hd)) ?_
      intro d hd
      rcases List.mem_append.mp hd with hd1 | hd2
      · exact hacc d hd1
      · rw [List.mem_singleton] at hd2
        subst hd2
        exact shuffle_dim_mem_lt n hn dim (hdims dim (List.mem_cons_self _ _)) _

theorem idx_lt (n : ℕ) (hn : 0 < n) (indices : List (List ℕ))
    (hind : ∀ dim ∈ indices, ∀ v ∈ dim, v < n) (i j : ℕ) :
    (indices.getD j []).getD i 0 < n := by
  by_cases hj : j < indices.length
  · have hdim := hind _ (getD_mem indices j [] hj)
    by_cases hi : i < (indices.getD j []).length
    · exact hdim _ (getD_mem _ i 0 hi)
    · rw [getD_oob _ _ _ (le_of_not_lt hi)]
      exact hn
  · rw [getD_oob _ _ _ (le_of_not_lt hj)]
    exact hn

theorem init_gene_eq (cfg : NSGA2Config) (indices : List (List ℕ)) (i : ℕ)
    (acc2 : List ℚ × ℕ) (j : ℕ) :
    init_gene cfg indices i acc2 j
      = (acc2.1 ++ [(cfg.bounds.getD j (0, 0)).1 +
            ((((indices.getD j []).getD i 0 : ℕ) : ℚ) + (rand acc2.2).1)
                / (cfg.pop_size : ℚ)
              * ((cfg.bounds.getD j (0, 0)).2 - (cfg.bounds.getD j (0, 0)).1)],
          (rand acc2.2).2) := rfl

theorem init_gene_bound (cfg : NSGA2Config) (indices : List (List ℕ)) (i j : ℕ)
    (s2 : ℕ) (hb : bndOK cfg.bounds = true) (hn : 0 < cfg.pop_size)
    (hind : ∀ dim ∈ indices, ∀ v ∈ dim, v < cfg.pop_size)
    (hj : j < cfg.bounds.length) :
    geneInB (cfg.bounds.getD j (0, 0))
      ((cfg.bounds.getD j (0, 0)).1 +
        ((((indices.getD j []).getD i 0 : ℕ) : ℚ) + (rand s2).1) / (cfg.pop_size : ℚ)
          * ((cfg.bounds.getD j (0, 0)).2 - (cfg.bounds.getD j (0, 0)).1)) = true := by
  have hlohi := bndOK_getD cfg.bounds hb j hj
  have hidx := idx_lt cfg.pop_size hn indices hind i j
  obtain ⟨hr0, hr1⟩ := rand_nonneg_lt_one s2
  set idx := (indices.getD j []).getD i 0 with hidxdef
  set lo := (cfg.bounds.getD j (0, 0)).1 with hlodef
  set hi := (cfg.bounds.getD j (0, 0)).2 with hhidef
  have hnq : (0 : ℚ) < (cfg.pop_size : ℚ) := by exact_mod_cast hn
  have hu0 : 0 ≤ ((idx : ℚ) + (rand s2).1) / (cfg.pop_size : ℚ) := by
    apply div_nonneg _ hnq.le
    positivity
  have hu1 : ((idx : ℚ) + (rand s2).1) / (cfg.pop_size : ℚ) < 1 := by
    rw [div_lt_one hnq]
    have hidxq : (idx : ℚ) + 1 ≤ (cfg.pop_size : ℚ) := by exact_mod_cast hidx
    linarith
  unfold geneInB
  simp only [Bool.and_eq_true, decide_eq_true_eq]
  constructor
  · nlinarith
  · nlinarith

theorem init_gene_fold_inv (cfg : NSGA2Config) (indices : List (List ℕ)) (i : ℕ)
    (hb : bndOK cfg.bounds = true) (hn : 0 < cfg.pop_size)
    (hind : ∀ dim ∈ indices, ∀ v ∈ dim, v < cfg.pop_size) :
    ∀ (c jstart : ℕ) (acc2 : List ℚ × ℕ),
      acc2.1.length = jstart → jstart + c ≤ cfg.bounds.length →
      (∀ k, k < jstart → geneInB (cfg.bounds.getD k (0, 0)) (acc2.1.getD k 0) = true) →
      ((List.range' jstart c).foldl (init_gene cfg indices i) acc2).1.length = jstart + c
      ∧ ∀ k, k < jstart + c →
          geneInB (cfg.bounds.getD k (0, 0))
            (((List.range' jstart c).foldl (init_gene cfg indices i) acc2).1.getD k 0)
              = true
  | 0, jstart, acc2, hlen, _, hall => by
      constructor
      · show acc2.1.length = jstart + 0
        omega
      · intro k hk
        exact hall k (by omega)
  | c + 1, jstart, acc2, hlen, hle, hall => by
      have hrange : List.range' jstart (c + 1) = jstart :: List.range' (jstart + 1) c := rfl
      rw [hrange, List.foldl_cons]
      have hnew_len : (init_gene cfg indices i acc2 jstart).1.length = jstart + 1 := by
        rw [init_gene_eq]
        simp [hlen]
      have hnew_all : ∀ k, k < jstart + 1 →
          geneInB (cfg.bounds.getD k (0, 0))
            ((init_gene cfg indices i acc2 jstart).1.getD k 0) = true := by
        intro k hk
        rw [init_gene_eq]
        by_cases hkj : k < jstart
        · rw [getD_append_left _ _ _ _ (by omega)]
          exact hall k hkj
        · have hkeq : k = jstart := by omega
          subst hkeq
          rw [getD_concat_of_len _ _ _ _ hlen]
          exact init_gene_bound cfg indices i k acc2.2 hb hn hind (by omega)
      obtain ⟨ih1, ih2⟩ := init_gene_fold_inv cfg indices i hb hn hind c (jstart + 1)
        (init_gene cfg indices i acc2 jstart) hnew_len (by omega) hnew_all
      constructor
      · rw [ih1]
        omega
      · intro k hk
        exact ih2 k (by omega)

theorem init_candidate_inB (cfg : NSGA2Config) (indices : List (List ℕ))
    (hb : bndOK cfg.bounds = true) (hn : 0 < cfg.pop_size)
    (hind : ∀ dim ∈ indices, ∀ v ∈ dim, v < cfg.pop_size)
    (acc : List Individual × ℕ) (i : ℕ)
    (hacc : popInBounds cfg.bounds acc.1 = true) :
    popInBounds cfg.bounds (init_candidate cfg indices acc i).1 = true := by
  simp only [init_candidate]
  unfold popInBounds at hacc ⊢
  rw [List.all_append, Bool.and_eq_true]
  refine ⟨hacc, ?_⟩
  rw [List.all_cons, List.all_nil, Bool.and_true]
  show vecInBounds cfg.bounds
    ((List.range cfg.bounds.length).foldl (init_gene cfg indices i) ([], acc.2)).1 = true
  rw [List.range_eq_range']
  obtain ⟨hl, ha⟩ := init_gene_fold_inv cfg indices i hb hn hind cfg.bounds.length 0
    ([], acc.2) rfl (by omega) (fun k hk => absurd hk (by omega))
  rw [vecInBounds_iff]
  constructor
  · rw [hl]
    omega
  · intro k hk
    rw [hl] at hk
    exact ha k (by omega)

theorem init_candidates_fold_inB (cfg : NSGA2Config) (indices : List (List ℕ))
    (hb : bndOK cfg.bounds = true) (hn : 0 < cfg.pop_size)
    (hind : ∀ dim ∈ indices, ∀ v ∈ dim, v < cfg.pop_size) :
    ∀ (is2 : List ℕ) (acc : List Individual × ℕ),
      popInBounds cfg.bounds acc.1 = true →
      popInBounds cfg.bounds ((is2.foldl (init_candidate cfg indices) acc)).1 = true
  | [], _, h => h
  | i :: is2, acc, h => by
      rw [List.foldl_cons]
      exact init_candidates_fold_inB cfg indices hb hn hind is2 _
        (init_candidate_inB cfg indices hb hn hind acc i h)

/-- The initial population respects the bounds. -/
theorem initialize_population_inB (cfg : NSGA2Config) (s : ℕ)
    (hb : bndOK cfg.bounds = true) :
    popInBounds cfg.bounds (initialize_population cfg s).1 = true := by
  rcases Nat.eq_zero_or_pos cfg.pop_size with h0 | hn
  · simp only [initialize_population, h0, List.range_zero, List.foldl_nil]
    rfl
  · simp only [initialize_population]
    apply init_candidates_fold_inB cfg _ hb hn
    · apply shuffled_dims_mem_lt cfg.pop_size hn
      · intro dim hdim v hv
        rw [List.mem_map] at hdim
        obtain ⟨_, _, hdim2⟩ := hdim
        subst hdim2
        exact List.mem_range.mp hv
      · intro dim hdim
        exact absurd hdim (List.not_mem_nil dim)
    · rfl

/-! Variation operators preserve the bounds. -/

theorem sbx_gene_inB (pf : ℚ → ℚ → ℚ) (cfg : NSGA2Config) (p1 p2 : List ℚ)
    (hb : bndOK cfg.bounds = true) (acc : (List ℚ × List ℚ) × ℕ) (i : ℕ)
    (hi : i < cfg.bounds.length)
    (h1 : vecInBounds cfg.bounds acc.1.1 = true)
    (h2 : vecInBounds cfg.bounds acc.1.2 = true) :
    vecInBounds cfg.bounds (sbx_gene pf cfg p1 p2 acc i).1.1 = true
    ∧ vecInBounds cfg.bounds (sbx_gene pf cfg p1 p2 acc i).1.2 = true := by
  simp only [sbx_gene]
  by_cases hr : (rand acc.2).1 > 1 / 2
  · rw [if_pos hr]
    exact ⟨h1, h2⟩
  · rw [if_neg hr]
    by_cases hy : |max (p1.getD i 0) (p2.getD i 0) - min (p1.getD i 0) (p2.getD i 0)|
        < 1 / 10 ^ 10
    · rw [if_pos hy]
      exact ⟨h1, h2⟩
    · rw [if_neg hy]
      have hcl := bndOK_getD cfg.bounds hb i hi
      exact ⟨vecInBounds_set _ _ _ _ h1 (geneInB_clamp _ _ hcl),
        vecInBounds_set _ _ _ _ h2 (geneInB_clamp _ _ hcl)⟩

theorem sbx_fold_inB (pf : ℚ → ℚ → ℚ) (cfg : NSGA2Config) (p1 p2 : List ℚ)
    (hb : bndOK cfg.bounds = true) :
    ∀ (is2 : List ℕ) (acc : (List ℚ × List ℚ) × ℕ),
      (∀ i ∈ is2, i < cfg.bounds.length) →
      vecInBounds cfg.bounds acc.1.1 = true → vecInBounds cfg.bounds acc.1.2 = true →
      vecInBounds cfg.bounds ((is2.foldl (sbx_gene pf cfg p1 p2) acc)).1.1 = true
      ∧ vecInBounds cfg.bounds ((is2.foldl (sbx_gene pf cfg p1 p2) acc)).1.2 = true
  | [], _, _, h1, h2 => ⟨h1, h2⟩
  | i :: is2, acc, his, h1, h2 => by
      rw [List.foldl_cons]
      obtain ⟨g1, g2⟩ := sbx_gene_inB pf cfg p1 p2 hb acc i
        (his i (List.mem_cons_self _ _)) h1 h2
      exact sbx_fold_inB pf cfg p1 p2 hb is2 _
        (fun k hk => his k (List.mem_cons_of_mem _ hk)) g1 g2

/-- SBX sends in-bounds parents to in-bounds children. -/
theorem sbx_crossover_inB (pf : ℚ → ℚ → ℚ) (cfg : NSGA2Config) (p1 p2 : List ℚ)
    (s : ℕ) (hb : bndOK cfg.bounds = true)
    (h1 : vecInBounds cfg.bounds p1 = true) (h2 : vecInBounds cfg.bounds p2 = true) :
    vecInBounds cfg.bounds (sbx_crossover pf cfg p1 p2 s).1.1 = true
    ∧ vecInBounds cfg.bounds (sbx_crossover pf cfg p1 p2 s).1.2 = true := by
  simp only [sbx_crossover]
  by_cases hr : (rand s).1 > cfg.crossover_prob
  · rw [if_pos hr]
    exact ⟨h1, h2⟩
  · rw [if_neg hr]
    refine sbx_fold_inB pf cfg p1 p2 hb (List.range p1.length) ((p1, p2), (rand s).2)
      ?_ h1 h2
    intro i hi
    have hlen := ((vecInBounds_iff _ _).mp h1).1
    rw [List.mem_range] at hi
    omega

theorem mut_gene_inB (pf : ℚ → ℚ → ℚ) (cfg : NSGA2Config)
    (hb : bndOK cfg.bounds = true) (acc : List ℚ × ℕ) (i : ℕ)
    (hi : i < cfg.bounds.length) (h : vecInBounds cfg.bounds acc.1 = true) :
    vecInBounds cfg.bounds (mut_gene pf cfg acc i).1 = true := by
  simp only [mut_gene]
  by_cases hr : (rand acc.2).1 > cfg.mutation_prob
  · rw [if_pos hr]
    exact h
  · rw [if_neg hr]
    exact vecInBounds_set _ _ _ _ h (geneInB_clamp _ _ (bndOK_getD cfg.bounds hb i hi))

theorem mut_fold_inB (pf : ℚ → ℚ → ℚ) (cfg : NSGA2Config)
    (hb : bndOK cfg.bounds = true) :
    ∀ (is2 : List ℕ) (acc : List ℚ × ℕ), (∀ i ∈ is2, i < cfg.bounds.length) →
      vecInBounds cfg.bounds acc.1 = true →
      vecInBounds cfg.bounds ((is2.foldl (mut_gene pf cfg) acc)).1 = true
  | [], _, _, h => h
  | i :: is2, acc, his, h => by
      rw [List.foldl_cons]
      exact mut_fold_inB pf cfg hb is2 _ (fun k hk => his k (List.mem_cons_of_mem _ hk))
        (mut_gene_inB pf cfg hb acc i (his i (List.mem_cons_self _ _)) h)

/-- Polynomial mutation preserves the bounds. -/
theorem polynomial_mutation_inB (pf : ℚ → ℚ → ℚ) (cfg : NSGA2Config) (x : List ℚ)
    (s : ℕ) (hb : bndOK cfg.bounds = true) (h : vecInBounds cfg.bounds x = true) :
    vecInBounds cfg.bounds (polynomial_mutation pf cfg x s).1 = true := by
  unfold polynomial_mutation
  refine mut_fold_inB pf cfg hb (List.range x.length) (x, s) ?_ h
  intro i hi
  have hlen := ((vecInBounds_iff _ _).mp h).1
  rw [List.mem_range] at hi
  omega

/-! The whole run stays in bounds. -/

theorem tournament_select_lt (pop : List Individual) (s : ℕ) (h : 0 < pop.length) :
    (tournament_select pop s).1 < pop.length := by
  have ha := rand_int_lt pop.length s h
  have hb := rand_int_lt pop.length (rand_int pop.length s).2 h
  unfold tournament_select
  dsimp only
  split
  · exact ha
  · split
    · exact hb
    · split
      · exact ha
      · exact hb

theorem popInBounds_append_one (b : List (ℚ × ℚ)) (l : List Individual)
    (ind : Individual) (hl : popInBounds b l = true)
    (hind : vecInBounds b ind.x = true) :
    popInBounds b (l ++ [ind]) = true := by
  unfold popInBounds at hl ⊢
  rw [List.all_append, Bool.and_eq_true]
  exact ⟨hl, by rw [List.all_cons, List.all_nil, Bool.and_true]; exact hind⟩

theorem create_offspring_go_inB (pf : ℚ → ℚ → ℚ) (cfg : NSGA2Config)
    (ev : List ℚ → List ℚ × ℚ × ℤ × List ℚ) (pop : List Individual)
    (hb : bndOK cfg.bounds = true) (hpop : popInBounds cfg.bounds pop = true)
    (hplen : pop.length = cfg.pop_size) :
    ∀ (fuel : ℕ) (acc : List Individual) (s : ℕ),
      popInBounds cfg.bounds acc = true →
      popInBounds cfg.bounds ((create_offspring_go pf cfg ev pop fuel acc s)).1 = true
  | 0, acc, s, hacc => by
      simp only [create_offspring_go]
      exact hacc
  | fuel + 1, acc, s, hacc => by
      simp only [create_offspring_go]
      by_cases hg : acc.length < cfg.pop_size
      · rw [if_pos hg]
        have hlen0 : 0 < pop.length := by omega
        set t1 := tournament_select pop s with ht1
        set t2 := tournament_select pop t1.2 with ht2
        set CX := sbx_crossover pf cfg (pop.getD t1.1 default).x
          (pop.getD t2.1 default).x t2.2 with hCX
        set M1 := polynomial_mutation pf cfg CX.1.1 CX.2 with hM1
        set M2 := polynomial_mutation pf cfg CX.1.2 M1.2 with hM2
        have hmem1 : vecInBounds cfg.bounds (pop.getD t1.1 default).x = true := by
          unfold popInBounds at hpop
          rw [List.all_eq_true] at hpop
          exact hpop _ (getD_mem pop _ default (tournament_select_lt pop s hlen0))
        have hmem2 : vecInBounds cfg.bounds (pop.getD t2.1 default).x = true := by
          unfold popInBounds at hpop
          rw [List.all_eq_true] at hpop
          exact hpop _ (getD_mem pop _ default (tournament_select_lt pop t1.2 hlen0))
        obtain ⟨hc1, hc2⟩ := sbx_crossover_inB pf cfg _ _ t2.2 hb hmem1 hmem2
        have hm1 := polynomial_mutation_inB pf cfg CX.1.1 CX.2 hb hc1
        have hm2 := polynomial_mutation_inB pf cfg CX.1.2 M1.2 hb hc2
        have hacc1 := popInBounds_append_one cfg.bounds acc
          (evalInd ev (Individual.new M1.1)) hacc hm1
        by_cases hg2 : (acc ++ [evalInd ev (Individual.new M1.1)]).length < cfg.pop_size
        · rw [if_pos hg2]
          exact create_offspring_go_inB pf cfg ev pop hb hpop hplen fuel _ _
            (popInBounds_append_one cfg.bounds _
              (evalInd ev (Individual.new M2.1)) hacc1 hm2)
        · rw [if_neg hg2]
          exact create_offspring_go_inB pf cfg ev pop hb hpop hplen fuel _ _ hacc1
      · rw [if_neg hg]
        exact hacc

theorem length_crowding_distance (pop : List Individual) :
    (crowding_distance pop).length = pop.length := by
  by_cases h : pop.length = 0
  · unfold crowding_distance
    rw [if_pos h]
  · rw [crowding_distance_eq pop h, crowdFront_fold_length]
    unfold crowd_reset
    exact List.length_map _ _

theorem env_sel_inB (cfg : NSGA2Config) (pop off : List Individual)
    (hpop : popInBounds cfg.bounds pop = true)
    (hoff : popInBounds cfg.bounds off = true) :
    popInBounds cfg.bounds (environmental_selection cfg pop off) = true := by
  have hsorted : popInBounds cfg.bounds
      (crowding_distance (non_dominated_sort (pop ++ off))) = true := by
    rw [popInBounds_eq_of_map_x cfg.bounds _ (pop ++ off)
      (by rw [map_x_crowding_distance, map_x_non_dominated_sort])]
    unfold popInBounds at hpop hoff ⊢
    rw [List.all_append, Bool.and_eq_true]
    exact ⟨hpop, hoff⟩
  simp only [environmental_selection]
  unfold popInBounds
  rw [List.all_eq_true]
  intro ind hmem
  rw [List.mem_map] at hmem
  obtain ⟨k, hk, rfl⟩ := hmem
  have hk2 : k ∈ List.range (crowding_distance (non_dominated_sort (pop ++ off))).length :=
    (mem_stableSortBy _ k _).mp (List.mem_of_mem_take hk)
  rw [List.mem_range] at hk2
  unfold popInBounds at hsorted
  rw [List.all_eq_true] at hsorted
  exact hsorted _ (getD_mem _ k default hk2)

theorem env_sel_length (cfg : NSGA2Config) (pop off : List Individual)
    (hoff : off.length = cfg.pop_size) :
    (environmental_selection cfg pop off).length = cfg.pop_size := by
  simp only [environmental_selection]
  rw [List.length_map, List.length_take, length_stableSortBy, List.length_range]
  rw [length_crowding_distance, length_non_dominated_sort, List.length_append]
  omega

theorem optimize_fold_inv (pf : ℚ → ℚ → ℚ) (cfg : NSGA2Config)
    (ev : List ℚ → List ℚ × ℚ × ℤ × List ℚ) (hb : bndOK cfg.bounds = true) :
    ∀ (gs : List ℕ) (st : (List Individual × ℕ) × List (List ℚ)),
      popInBounds cfg.bounds st.1.1 = true → st.1.1.length = cfg.pop_size →
      st.2.all (fun v => vecInBounds cfg.bounds v) = true →
      (popInBounds cfg.bounds
          ((gs.foldl (fun st2 _g => gen_step pf cfg ev st2) st)).1.1 = true
       ∧ ((gs.foldl (fun st2 _g => gen_step pf cfg ev st2) st)).1.1.length = cfg.pop_size
       ∧ ((gs.foldl (fun st2 _g => gen_step pf cfg ev st2) st)).2.all
           (fun v => vecInBounds cfg.bounds v) = true)
  | [], _, h1, h2, h3 => ⟨h1, h2, h3⟩
  | g :: gs, st, h1, h2, h3 => by
      rw [List.foldl_cons]
      have hoffB : popInBounds cfg.bounds
          (create_offspring pf cfg st.1.1 ev st.1.2).1 = true :=
        create_offspring_go_inB pf cfg ev st.1.1 hb h1 h2 cfg.pop_size [] st.1.2 rfl
      have hoffL : (create_offspring pf cfg st.1.1 ev st.1.2).1.length = cfg.pop_size :=
        create_offspring_go_length pf cfg ev st.1.1 cfg.pop_size [] st.1.2
          (Nat.zero_le _) (by simp)
      apply optimize_fold_inv pf cfg ev hb gs _
      · exact env_sel_inB cfg st.1.1 _ h1 hoffB
      · exact env_sel_length cfg st.1.1 _ hoffL
      · show (st.2 ++ (create_offspring pf cfg st.1.1 ev st.1.2).1.map Individual.x).all
          (fun v => vecInBounds cfg.bounds v) = true
        rw [List.all_append, Bool.and_eq_true]
        refine ⟨h3, ?_⟩
        rw [← popInBounds_eq_all_map]
        exact hoffB

/-- Every decision vector evaluated during a run is within bounds. -/
theorem optimize_loop_all_inB (pf : ℚ → ℚ → ℚ) (cfg : NSGA2Config)
    (ev : List ℚ → List ℚ × ℚ × ℤ × List ℚ) (s0 : ℕ)
    (hb : bndOK cfg.bounds = true) :
    (optimize_loop pf cfg ev s0).2.all (fun v => vecInBounds cfg.bounds v) = true := by
  have hpop1 : popInBounds cfg.bounds
      (evaluate ev (initialize_population cfg s0).1) = true := by
    rw [popInBounds_eq_of_map_x _ _ _ (map_x_evaluate ev _)]
    exact initialize_population_inB cfg s0 hb
  have hpop2 : popInBounds cfg.bounds
      (crowding_distance (non_dominated_sort
        (evaluate ev (initialize_population cfg s0).1))) = true := by
    rw [popInBounds_eq_of_map_x cfg.bounds
      (crowding_distance (non_dominated_sort
        (evaluate ev (initialize_population cfg s0).1)))
      (evaluate ev (initialize_population cfg s0).1)
      (by rw [map_x_crowding_distance, map_x_non_dominated_sort])]
    exact hpop1
  have hlen2 : (crowding_distance (non_dominated_sort
      (evaluate ev (initialize_population cfg s0).1))).length = cfg.pop_size := by
    rw [length_crowding_distance, length_non_dominated_sort]
    unfold evaluate
    rw [List.length_map]
    exact initialize_population_length cfg s0
  have htr : ((evaluate ev (initialize_population cfg s0).1).map Individual.x).all
      (fun v => vecInBounds cfg.bounds v) = true := by
    rw [← popInBounds_eq_all_map]
    exact hpop1
  exact (optimize_fold_inv pf cfg ev hb (List.range cfg.generations)
    ((crowding_distance (non_dominated_sort
        (evaluate ev (initialize_population cfg s0).1)),
      (initialize_population cfg s0).2),
      (evaluate ev (initialize_population cfg s0).1).map Individual.x)
    hpop2 hlen2 htr).2.2

/-- C2: with valid bounds (`lo ≤ hi` in every dimension), the initial
population lies within bounds, SBX crossover maps in-bounds parents to
in-bounds children, polynomial mutation preserves bounds, and every
decision vector produced at any point during a run of `optimize` lies
within the per-dimension closed intervals. -/
theorem bounds_invariant (pf : ℚ → ℚ → ℚ) (cfg : NSGA2Config)
    (ev : List ℚ → List ℚ × ℚ × ℤ × List ℚ) (s : ℕ) (p1 p2 x : List ℚ)
    (hb : bndOK cfg.bounds = true) :
    popInBounds cfg.bounds (initialize_population cfg s).1 = true
    ∧ (vecInBounds cfg.bounds p1 = true → vecInBounds cfg.bounds p2 = true →
        vecInBounds cfg.bounds (sbx_crossover pf cfg p1 p2 s).1.1 = true
        ∧ vecInBounds cfg.bounds (sbx_crossover pf cfg p1 p2 s).1.2 = true)
    ∧ (vecInBounds cfg.bounds x = true →
        vecInBounds cfg.bounds (polynomial_mutation pf cfg x s).1 = true)
    ∧ (optimizeTrace pf (NSGA2.new cfg) ev).all
        (fun v => vecInBounds cfg.bounds v) = true :=
  ⟨initialize_population_inB cfg s hb,
    fun h1 h2 => sbx_crossover_inB pf cfg p1 p2 s hb h1 h2,
    fun h => polynomial_mutation_inB pf cfg x s hb h,
    optimize_loop_all_inB pf cfg ev cfg.seed hb⟩

/-- Concrete instance of C2 at a small valid configuration. -/
theorem bounds_invariant_witness :
    bndOK cfgEx.bounds = true
    ∧ (popInBounds cfgEx.bounds (initialize_population cfgEx 42).1 = true
      ∧ (vecInBounds cfgEx.bounds [0] = true → vecInBounds cfgEx.bounds [1] = true →
          vecInBounds cfgEx.bounds (sbx_crossover pfEx cfgEx [0] [1] 42).1.1 = true
          ∧ vecInBounds cfgEx.bounds (sbx_crossover pfEx cfgEx [0] [1] 42).1.2 = true)
      ∧ (vecInBounds cfgEx.bounds [0] = true →
          vecInBounds cfgEx.bounds (polynomial_mutation pfEx cfgEx [0] 42).1 = true)
      ∧ (optimizeTrace pfEx (NSGA2.new cfgEx) evEx).all
          (fun v => vecInBounds cfgEx.bounds v) = true) :=
  ⟨by decide, bounds_invariant pfEx cfgEx evEx 42 [0] [1] [0] (by decide)⟩

end Minotaur
